import Mathlib

/-!
# flexclass: header-plus-trailing-arrays layout engine

A shallow embedding of `include/flexclass/flexclass.hpp` (namespace `fc`).

* Addresses and `std::size_t` values are natural numbers below `2 ^ 64`;
  every machine operation that can wrap is written with `wrap`.
* The null pointer is the address `0`, as the source itself assumes when it
  builds a "virtual" address with `static_cast<char*>(nullptr) + offset`.
* `assert` is live: a failed assertion ends the run with a `Failure`.
* A C++ type enters the program only through `sizeof`, `alignof` and
  `std::is_trivially_destructible`; `Ty` carries exactly these.
-/

namespace fc

/-- What the program asks of a C++ type `T`: `sizeof(T)`, `alignof(T)` and
`std::is_trivially_destructible<T>::value`. -/
structure Ty where
  size : Nat
  align : Nat
  trivial : Bool
deriving DecidableEq, Repr

/-- The value `std::numeric_limits<std::size_t>::max()` on a 64-bit target. -/
def SIZE_MAX : Nat := 2 ^ 64 - 1

/-- Reduction of an exact result to a 64-bit machine word. -/
def wrap (n : Nat) : Nat := n % 2 ^ 64

/-- The function `incr(in, len)`: `static_cast<char*>(in) + len`. -/
def incr (p len : Nat) : Nat := wrap (p + len)

/-- The three things a call of `std::align` leaves behind: the returned
pointer (`0` is `nullptr`) and the by-reference arguments `ptr` and `space`. -/
structure AlignResult where
  r : Nat
  ptr : Nat
  space : Nat
deriving DecidableEq, Repr

/-- The standard library's `std::align(alignment, size, ptr, space)`, which the
header calls but does not define; transcribed from libstdc++:
`if (space < size) return nullptr;`
`aligned = (intptr - 1u + alignment) & -alignment; diff = aligned - intptr;`
`if (diff > space - size) return nullptr;`
`else { space -= diff; return ptr = aligned; }`. -/
def std_align (alignment size ptr space : Nat) : AlignResult :=
  if space < size then ⟨0, ptr, space⟩
  else
    let aligned := wrap (ptr + (2 ^ 64 - 1) + alignment) &&& wrap (2 ^ 64 - alignment)
    let diff := wrap (aligned + 2 ^ 64 - ptr)
    if diff > space - size then ⟨0, ptr, space⟩
    else ⟨aligned, aligned, space - diff⟩

/-- The function `align<T>(ptr)`: `std::align(alignof(T), 0, ptr, space)` with
`space = SIZE_MAX`; the returned pointer. -/
def align (T : Ty) (ptr : Nat) : Nat :=
  (std_align T.align 0 ptr SIZE_MAX).r

/-- The class `aligner_impl<T>`: a typed pointer. -/
structure aligner_impl where
  T : Ty
  ptr : Nat
deriving DecidableEq, Repr

/-- The member `advance(len)`: `ptr += len` on a `T*`, i.e. `len` elements. -/
def aligner_impl.advance (a : aligner_impl) (len : Nat) : aligner_impl :=
  { a with ptr := wrap (a.ptr + len * a.T.size) }

/-- The member `cast<U>()`: `aligner_impl<U>{align<U>(ptr)}`. -/
def aligner_impl.cast (a : aligner_impl) (U : Ty) : aligner_impl :=
  ⟨U, align U a.ptr⟩

/-- The member `get<U>()`: `cast<U>().ptr`. -/
def aligner_impl.get (a : aligner_impl) (U : Ty) : Nat :=
  (a.cast U).ptr

/-- The function `aligner(t)`: `aligner_impl<T>{t}`. -/
def aligner (T : Ty) (t : Nat) : aligner_impl := ⟨T, t⟩

/-- The assertions of the header. `assert_m_ptr` carries the values `buf` and
`space` have when `assert(m_ptr)` in `consume` fails. -/
inductive Failure where
  | assert_r
  | assert_m_ptr (buf space : Nat)
  | assert_zero (numBytesForArrays : Nat)
deriving DecidableEq, Repr

/-- Addresses visited by a loop `for (T* it = first; it != last; ++it)`, as in
the range-based `for` of `consume` and in `std::destroy`. The loop meets `last`
only when `last` lies a whole number of elements after `first`; otherwise it
runs off the range (undefined behaviour) and there is no result. -/
def ptrRange (size first last : Nat) : Option (List Nat) :=
  if first = last then some []
  else if first < last ∧ 0 < size ∧ (last - first) % size = 0 then
    some ((List.range ((last - first) / size)).map (fun i => first + i * size))
  else none

/-- The class `ArrayBuilder<T>`: the element count and the pointer set by `consume`
(`m_ptr {nullptr}`). -/
structure ArrayBuilder where
  T : Ty
  m_size : Nat
  m_ptr : Nat := 0
deriving DecidableEq, Repr

/-- The member `numBytes()`: `m_size*sizeof(T)` in `std::size_t`. -/
def ArrayBuilder.numBytes (b : ArrayBuilder) : Nat := wrap (b.m_size * b.T.size)

/-- The member `begin()`: `static_cast<T*>(m_ptr)`. -/
def ArrayBuilder.begin (b : ArrayBuilder) : Nat := b.m_ptr

/-- The member `end()`: `begin() + m_size` on a `T*`. -/
def ArrayBuilder.end_ (b : ArrayBuilder) : Nat := wrap (b.begin + b.m_size * b.T.size)

/-- What `consume` leaves behind when its assertion holds: the builder, the
by-reference arguments `buf` and `space`, and the addresses handed to
placement `new` by `for (auto& el : *this) new (&el) T`. -/
structure Consumed where
  builder : ArrayBuilder
  buf : Nat
  space : Nat
  constructed : Option (List Nat)
deriving DecidableEq, Repr

/-- The member `ArrayBuilder<T>::consume(buf, space)`: `std::align` sets `m_ptr`,
`assert(m_ptr)`, then `space -= numBytes()`, `buf = incr(buf, numBytes())` and
the loop of placement `new` over `*this`. -/
def ArrayBuilder.consume (b : ArrayBuilder) (buf space : Nat) : Except Failure Consumed :=
  let a := std_align b.T.align b.numBytes buf space
  let b1 : ArrayBuilder := { b with m_ptr := a.r }
  if b1.m_ptr = 0 then .error (.assert_m_ptr a.ptr a.space)
  else
    let space1 := wrap (a.space + 2 ^ 64 - b1.numBytes)
    let buf1 := incr a.ptr b1.numBytes
    .ok ⟨b1, buf1, space1, ptrRange b1.T.size b1.begin b1.end_⟩

/-- The member `ArrayBuilder<T>::numRequiredBytes(offset)`; a non-const member, so the
builder is returned next to the value. -/
def ArrayBuilder.numRequiredBytes (b : ArrayBuilder) (offset : Nat) :
    Except Failure (ArrayBuilder × Nat) :=
  let space := SIZE_MAX
  let originalSpace := space
  let ptr := wrap (0 + offset)
  let a := std_align b.T.align b.numBytes ptr space
  if a.r = 0 then .error .assert_r
  else .ok (b, wrap (wrap (originalSpace + 2 ^ 64 - a.space) + b.numBytes))

/-- A template argument of `FlexibleLayoutBase<Derived, T...>`: a plain type,
`T[]`, or one of the four array class templates (`El` is the anchor index,
`-1` for none). -/
inductive Slot where
  | value (T : Ty)
  | unbounded (T : Ty)
  | unsizedArray (T : Ty)
  | sizedArray (T : Ty)
  | adjacentArray (T : Ty) (El : Int)
  | sizedAdjacentArray (T : Ty) (El : Int)
deriving DecidableEq, Repr

/-- The type `TransformUnboundedArrays<T>::type`: for `T[]` the conditional on
`std::is_trivially_destructible<T>`, any other type unchanged. -/
def TransformUnboundedArrays : Slot → Slot
  | .unbounded T => if T.trivial then .unsizedArray T else .sizedArray T
  | s => s

/-- The constant `is_fc_array<T>::value`: the type has a member `fc_array_kind`. -/
def is_fc_array : Slot → Bool
  | .unsizedArray _ => true
  | .sizedArray _ => true
  | .adjacentArray _ _ => true
  | .sizedAdjacentArray _ _ => true
  | _ => false

/-- An element of the `PreImpl` tuple: `PreImplConverter<T>::type` is
`ArrayBuilder<...>` for `T[]` and for the array class templates, `T` itself
otherwise. -/
inductive PreImpl where
  | value (T : Ty) (v : Nat)
  | builder (b : ArrayBuilder)
deriving DecidableEq, Repr

/-- The constant `is_array_placeholder<U>::value`. -/
def is_array_placeholder : PreImpl → Bool
  | .builder _ => true
  | .value _ _ => false

/-- The type `PreImplConverter<T>::type` constructed from the argument of `niw` for the
slot: the forwarded value, or `ArrayBuilder(size)`. -/
def PreImplConverter : Slot → Nat → PreImpl
  | .value T, v => .value T v
  | .unbounded T, n => .builder { T := T, m_size := n }
  | .unsizedArray T, n => .builder { T := T, m_size := n }
  | .sizedArray T, n => .builder { T := T, m_size := n }
  | .adjacentArray T _, n => .builder { T := T, m_size := n }
  | .sizedAdjacentArray T _, n => .builder { T := T, m_size := n }

/-- A member of the header tuple `std::tuple<TransformUnboundedArrays<T>::type...>`
with the data members of its class. -/
inductive Member where
  | value (T : Ty) (v : Nat)
  | unsizedArray (T : Ty) (m_begin : Nat)
  | sizedArray (T : Ty) (m_begin m_end : Nat)
  | adjacentArray (T : Ty) (El : Int)
  | sizedAdjacentArray (T : Ty) (El : Int) (m_end : Nat)
deriving DecidableEq, Repr

/-- The converting constructors `UnsizedArray(ArrayBuilder<T>&&)`,
`SizedArray(...)`, `AdjacentArray(...)`, `SizedAdjacentArray(...)`, applied by
the tuple constructor to each element of `pi`; `none` where the tuple element
cannot be constructed from the `PreImpl` element. -/
def Member.ofPreImpl : Slot → PreImpl → Option Member
  | .value _, .value T v => some (.value T v)
  | .unsizedArray T, .builder aph => some (.unsizedArray T aph.begin)
  | .sizedArray T, .builder aph => some (.sizedArray T aph.begin aph.end_)
  | .adjacentArray T El, .builder _ => some (.adjacentArray T El)
  | .sizedAdjacentArray T El, .builder aph => some (.sizedAdjacentArray T El aph.end_)
  | _, _ => none

/-- The plan pass of `niw`: over the elements of `pi` in order,
`if (is_array_placeholder<U>::value) numBytesForArrays +=
u.numRequiredBytes(sizeof(FlexibleLayoutBase) + numBytesForArrays);`.
Returns `pi` (the lambda takes `U&`) and `numBytesForArrays`. -/
def planPass (sizeofFLB : Nat) : List PreImpl → Nat → Except Failure (List PreImpl × Nat)
  | [], numBytesForArrays => .ok ([], numBytesForArrays)
  | .value T v :: rest, numBytesForArrays =>
    match planPass sizeofFLB rest numBytesForArrays with
    | .error e => .error e
    | .ok (rest1, n1) => .ok (.value T v :: rest1, n1)
  | .builder u :: rest, numBytesForArrays =>
    match u.numRequiredBytes (wrap (sizeofFLB + numBytesForArrays)) with
    | .error e => .error e
    | .ok (u1, r) =>
      match planPass sizeofFLB rest (wrap (numBytesForArrays + r)) with
      | .error e => .error e
      | .ok (rest1, n1) => .ok (.builder u1 :: rest1, n1)

/-- State after the construct pass of `niw`: the tuple `pi`, the lambda's own
`arrayBuffer`, `numBytesForArrays`, and per array placeholder the addresses
given to placement `new`. -/
structure ConstructState where
  pi : List PreImpl
  arrayBuffer : Nat
  numBytesForArrays : Nat
  constructed : List (Option (List Nat))
deriving DecidableEq, Repr

/-- The construct pass of `niw`: over the elements of `pi` in order,
`if (is_array_placeholder<U>::value) u.consume(arrayBuffer, numBytesForArrays);`. -/
def constructPass : List PreImpl → Nat → Nat → Except Failure ConstructState
  | [], arrayBuffer, numBytesForArrays => .ok ⟨[], arrayBuffer, numBytesForArrays, []⟩
  | .value T v :: rest, arrayBuffer, numBytesForArrays =>
    match constructPass rest arrayBuffer numBytesForArrays with
    | .error e => .error e
    | .ok st => .ok { st with pi := .value T v :: st.pi }
  | .builder u :: rest, arrayBuffer, numBytesForArrays =>
    match u.consume arrayBuffer numBytesForArrays with
    | .error e => .error e
    | .ok c =>
      match constructPass rest c.buf c.space with
      | .error e => .error e
      | .ok st => .ok { st with pi := .builder c.builder :: st.pi,
                                constructed := c.constructed :: st.constructed }

/-- The header tuple built from `pi` by `Derived(std::move(pi))`. -/
def buildMembers : List Slot → List PreImpl → Option (List Member)
  | [], [] => some []
  | s :: slots, u :: pi =>
    match Member.ofPreImpl (TransformUnboundedArrays s) u, buildMembers slots pi with
    | some m, some ms => some (m :: ms)
    | _, _ => none
  | _, _ => none

/-- The global allocator: the blocks handed out by `::operator new` and not
yet given to `::operator delete`, each with its address and size. -/
abbrev Heap := List (Nat × Nat)

/-- The call `::operator new(size)` returning the address `addr`. -/
def operator_new (heap : Heap) (addr size : Nat) : Heap := (addr, size) :: heap

/-- The call `::operator delete(p)`. -/
def operator_delete (heap : Heap) (p : Nat) : Heap := heap.filter (fun blk => blk.1 != p)

/-- An object of type `Derived` at address `addr`: the header tuple.
`sizeofFLB` is `sizeof(FlexibleLayoutBase)`, which `niw` statically asserts to
equal `sizeof(Derived)`. -/
structure Instance where
  addr : Nat
  sizeofFLB : Nat
  members : List Member
deriving DecidableEq, Repr

/-- What a call of `niw` leaves behind when no assertion fails. -/
structure Built where
  instance_ : Instance
  requested : Nat
  constructed : List (Option (List Nat))
  heap : Heap
deriving DecidableEq, Repr

/-- The static member `FlexibleLayoutBase<Derived, T...>::niw(args...)`.
`sizeofFLB` is `sizeof(FlexibleLayoutBase)`, `decl` the template arguments
`T...` each with its argument of `niw`, and `implBuffer` the address that
`::operator new` returns. `none` stands for a `Derived(std::move(pi))` that
has no matching constructor. -/
def niw (sizeofFLB : Nat) (heap : Heap) (implBuffer : Nat) (decl : List (Slot × Nat)) :
    Except Failure (Option Built) :=
  let pi := decl.map (fun d => PreImplConverter d.1 d.2)
  match planPass sizeofFLB pi 0 with
  | .error e => .error e
  | .ok (pi1, numBytesForArrays) =>
    let requested := wrap (sizeofFLB + numBytesForArrays)
    let heap1 := operator_new heap implBuffer requested
    let arrayBuffer := wrap (implBuffer + sizeofFLB)
    match constructPass pi1 arrayBuffer numBytesForArrays with
    | .error e => .error e
    | .ok st =>
      if st.numBytesForArrays = 0 then
        .ok ((buildMembers (decl.map (fun d => d.1)) st.pi).map
          (fun ms => ⟨⟨implBuffer, sizeofFLB, ms⟩, requested, st.constructed, heap1⟩))
      else .error (.assert_zero st.numBytesForArrays)

/-- The member `type` of the array classes (`U::type`); for a value member
the type itself. -/
def Member.type : Member → Ty
  | .value T _ => T
  | .unsizedArray T _ => T
  | .sizedArray T _ _ => T
  | .adjacentArray T _ => T
  | .sizedAdjacentArray T _ _ => T

/-- The shared body of `AdjacentArray::begin(ptr)` and
`SizedAdjacentArray::begin(ptr)`:
`if constexpr (El == -1) return aligner(ptr).advance(1).template get<T>();`
`else return aligner(ptr->template end<El>()).template get<T>();`.
In the first branch `ptr` is a `Derived*` and `advance(1)` adds
`sizeof(Derived)`, the only property of `Derived` that enters. The callback is
`ptr->template end<El>()`; the pointee type of the pointer it returns only
matters to `advance`, which that branch does not call. -/
def adjacent_begin (this : Instance) (T : Ty) (El : Int) (end_ : Nat → Option Nat) :
    Option Nat :=
  if El = -1 then
    some (((aligner ⟨this.sizeofFLB, 1, true⟩ this.addr).advance 1).get T)
  else if El < 0 then none
  else
    match end_ El.toNat with
    | some q => some ((aligner T q).get T)
    | none => none

/-- The member function template `begin(const Derived* ptr)` of the class of a
tuple member; `none` for a member without it. -/
def Member.begin (m : Member) (this : Instance) (end_ : Nat → Option Nat) : Option Nat :=
  match m with
  | .value _ _ => none
  | .unsizedArray _ m_begin => some m_begin
  | .sizedArray _ m_begin _ => some m_begin
  | .adjacentArray T El => adjacent_begin this T El end_
  | .sizedAdjacentArray T El _ => adjacent_begin this T El end_

/-- The member function template `end(const Derived* ptr)` of the class of a
tuple member (`SizedArray`, `SizedAdjacentArray`); `none` for a class without it. -/
def Member.end_ (m : Member) : Option Nat :=
  match m with
  | .sizedArray _ _ m_end => some m_end
  | .sizedAdjacentArray _ _ m_end => some m_end
  | _ => none

/-- The accessor `FlexibleLayoutBase::end<e>()`:
`return std::get<e>(*this).begin(this);`. The first argument bounds the depth
of the anchor chain followed through `end<El>()`. -/
def Instance.endFuel (this : Instance) : Nat → Nat → Option Nat
  | 0, _ => none
  | fuel + 1, e =>
    match this.members[e]? with
    | none => none
    | some m => m.begin this (Instance.endFuel this fuel)

/-- The accessor `FlexibleLayoutBase::end<e>()`, with room for an anchor
chain through every member. -/
def Instance.end_ (this : Instance) (e : Nat) : Option Nat :=
  this.endFuel (this.members.length + 1) e

/-- The accessor `FlexibleLayoutBase::begin<e>()`:
`return std::get<e>(*this).begin(this);`. -/
def Instance.begin (this : Instance) (e : Nat) : Option Nat :=
  match this.members[e]? with
  | none => none
  | some m => m.begin this this.end_

/-- What a call of `deleet` that returns leaves behind: per call of
`std::destroy` the addresses whose destructor ran, whether `p->~Derived()` ran,
and the allocator. -/
structure Teardown where
  destroyed : List (Option (List Nat))
  headerDestroyed : Bool
  heap : Heap
deriving DecidableEq, Repr

/-- The body of the lambda of `deleet` for one tuple member `u`:
`if constexpr (is_fc_array<U>::value) if constexpr
(!std::is_trivially_destructible<typename U::type>::value)
std::destroy(u.begin(p), u.end(p));`. `none`: no call of `std::destroy`. -/
def destroyMember (p : Instance) (u : Member) : Option (Option (List Nat)) :=
  match u with
  | .value _ _ => none
  | _ =>
    if u.type.trivial then none
    else
      match u.begin p p.end_, u.end_ with
      | some first, some last => some (ptrRange u.type.size first last)
      | _, _ => some none

/-- The static member `FlexibleLayoutBase::deleet(const Derived* p)`; the null
pointer argument is `none`. The result is `none` when one of the calls of
`std::destroy` has a range whose end its loop never meets: that call does not
return, so `p->~Derived()` and `::operator delete(p)` are not reached. -/
def deleet (heap : Heap) (p : Option Instance) : Option Teardown :=
  match p with
  | none => some ⟨[], false, heap⟩
  | some obj =>
    let destroyed := obj.members.filterMap (destroyMember obj)
    if destroyed.all (fun d => d.isSome) then
      some ⟨destroyed, true, operator_delete heap obj.addr⟩
    else none

/-- The tag types `unsized` and `sized`. -/
inductive Kind where
  | unsized
  | sized
deriving DecidableEq, Repr

/-- The member `fc_array_kind` of the four array classes; `none` for a type
without it. -/
def fc_array_kind : Slot → Option Kind
  | .unsizedArray _ => some .unsized
  | .sizedArray _ => some .sized
  | .adjacentArray _ _ => some .unsized
  | .sizedAdjacentArray _ _ => some .sized
  | _ => none

/-- The number of pointer data members (`T* const m_begin`, `T* const m_end`)
of the class of a slot. -/
def pointerMembers : Slot → Nat
  | .unsizedArray _ => 1
  | .sizedArray _ => 2
  | .adjacentArray _ _ => 0
  | .sizedAdjacentArray _ _ => 1
  | _ => 0

/-- The constant `GetAlignmentRequirement<T>::value`: `alignof(T)` for a plain
type and for `T[]`, `T::array_alignment` (which every array class defines as
`alignof(T)` of its element type) for an array class. -/
def GetAlignmentRequirement : Slot → Nat
  | .value T => T.align
  | .unbounded T => T.align
  | .unsizedArray T => T.align
  | .sizedArray T => T.align
  | .adjacentArray T _ => T.align
  | .sizedAdjacentArray T _ => T.align

/-- The constant `CollectAlignment<Types...>::value`:
`std::max({GetAlignmentRequirement<Types>::value...})`; `none` for the empty
pack, for which `std::max` has no value. -/
def CollectAlignment : List Slot → Option Nat
  | [] => none
  | s :: rest => some (rest.foldl (fun m t => max m (GetAlignmentRequirement t))
      (GetAlignmentRequirement s))

/-! ### The specification's arithmetic, in exact natural numbers -/

/-- The specification's `alignUp(address, alignment)`: the smallest address not
below `address` that is a multiple of `alignment`. -/
def spec_alignUp (address alignment : Nat) : Nat :=
  (address + alignment - 1) / alignment * alignment

/-- The specification's `requiredBytes(count, startOffset) =
alignUp(startOffset, alignment) - startOffset + count * elementSize`. -/
def spec_requiredBytes (T : Ty) (count startOffset : Nat) : Nat :=
  spec_alignUp startOffset T.align - startOffset + count * T.size

/-- The element type of an array slot (`T` of `T[]`, `U::type` of an array
class); `none` for a value slot. -/
def Slot.elem : Slot → Option Ty
  | .value _ => none
  | .unbounded T => some T
  | .unsizedArray T => some T
  | .sizedArray T => some T
  | .adjacentArray T _ => some T
  | .sizedAdjacentArray T _ => some T

/-- The array slots of a declaration in declaration order, each with its
element type and the element count passed to `niw`. -/
def arraySlots (decl : List (Slot × Nat)) : List (Ty × Nat) :=
  decl.filterMap (fun d => (Slot.elem d.1).map (fun T => (T, d.2)))

/-- The specification's plan pass: the running total of trailing bytes, each
array slot adding `requiredBytes(count, headerSize + running total)`. -/
def spec_totalTrailingBytes (headerSize : Nat) : List (Ty × Nat) → Nat → Nat
  | [], total => total
  | (T, n) :: rest, total =>
    spec_totalTrailingBytes headerSize rest (total + spec_requiredBytes T n (headerSize + total))

/-- The end of the last region when the regions are placed one after the other
by `alignUp`, starting at `start`. -/
def spec_regionsEnd : List (Ty × Nat) → Nat → Nat
  | [], start => start
  | (T, n) :: rest, start => spec_regionsEnd rest (spec_alignUp start T.align + n * T.size)

/-- The array placeholders of the tuple `pi`, in order. -/
def builders : List PreImpl → List ArrayBuilder
  | [] => []
  | .value _ _ :: rest => builders rest
  | .builder b :: rest => b :: builders rest

/-- Element type and element count of each array placeholder of `pi`. -/
def regions (pi : List PreImpl) : List (Ty × Nat) :=
  (builders pi).map (fun b => (b.T, b.m_size))

/-- The tuple `pi` with every placeholder's `m_ptr` set to the start of its
region, the regions placed one after the other by `alignUp` from `start`. -/
def placed : List PreImpl → Nat → List PreImpl
  | [], _ => []
  | .value T v :: rest, start => .value T v :: placed rest start
  | .builder b :: rest, start =>
    .builder { b with m_ptr := spec_alignUp start b.T.align } ::
      placed rest (spec_alignUp start b.T.align + b.m_size * b.T.size)

/-- The element addresses of every placeholder of `pi`, from its `begin()` over
its `m_size` elements. -/
def elementLoops (pi : List PreImpl) : List (Option (List Nat)) :=
  (builders pi).map (fun b => ptrRange b.T.size b.begin (b.begin + b.m_size * b.T.size))

/-- Every array slot's element alignment is a power of two below `2 ^ 64`, as
`alignof` always is. -/
def alignmentsOk (l : List (Ty × Nat)) : Prop :=
  ∀ x ∈ l, ∃ k, k < 64 ∧ x.1.align = 2 ^ k

/-! ### Types and declarations used as concrete inputs -/

/-- A 32-bit integer. -/
def int32 : Ty := ⟨4, 4, true⟩

/-- A byte (`char`). -/
def byte : Ty := ⟨1, 1, true⟩

/-- A class of size and alignment 8 with a user-provided destructor. -/
def NonTrivial : Ty := ⟨8, 8, false⟩

/-- The scenario of the specification: `FlexibleLayoutClass<int32, byte[],
NonTrivial[]>` built with `(7, 5, 3)`. -/
def scenario : List (Slot × Nat) :=
  [(.value int32, 7), (.unbounded byte, 5), (.unbounded NonTrivial, 3)]

/-- An over-aligned type of size and alignment 32. -/
def Wide : Ty := ⟨32, 32, true⟩

/-- A declaration whose single array slot is over-aligned:
`FlexibleLayoutClass<Wide[]>` built with `(2)`. -/
def overaligned : List (Slot × Nat) := [(.unbounded Wide, 2)]

/-- A declaration whose byte count does not fit `std::size_t`:
`FlexibleLayoutClass<NonTrivial[]>` built with `(2 ^ 61 + 1)`. -/
def oversized : List (Slot × Nat) := [(.unbounded NonTrivial, 2 ^ 61 + 1)]

/-- A declaration with an adjacent slot without anchor after a value slot:
`FlexibleLayoutClass<int32, SizedAdjacentArray<NonTrivial>>` built with `(7, 2)`. -/
def adjacentFirst : List (Slot × Nat) :=
  [(.value int32, 7), (.sizedAdjacentArray NonTrivial (-1), 2)]

/-- A class of size 16 and alignment 8 with a user-provided destructor. -/
def NonTrivial16 : Ty := ⟨16, 8, false⟩

/-- A declaration with an anchored slot of 16-byte elements:
`FlexibleLayoutClass<byte[], SizedAdjacentArray<NonTrivial16, 0>>` built with
`(3, 2)`. -/
def anchored16 : List (Slot × Nat) :=
  [(.unbounded byte, 3), (.sizedAdjacentArray NonTrivial16 0, 2)]

/-- A declaration with an anchored slot: `FlexibleLayoutClass<byte[],
SizedAdjacentArray<NonTrivial, 0>>` built with `(3, 2)`. -/
def anchored : List (Slot × Nat) :=
  [(.unbounded byte, 3), (.sizedAdjacentArray NonTrivial 0, 2)]

/-! ### Alignment arithmetic -/

theorem mask_eq_sub_mod (k : Nat) (hk : k ≤ 64) (y : Nat) (hy : y < 2 ^ 64) :
    y &&& (2 ^ 64 - 2 ^ k) = y - y % 2 ^ k := by
  have h1 : (2 : Nat) ^ 64 - 2 ^ k = 2 ^ k * (2 ^ (64 - k) - 1) := by
    rw [Nat.mul_sub, ← Nat.pow_add]; congr 2 <;> omega
  have h2 : y - y % 2 ^ k = 2 ^ k * (y >>> k) := by
    rw [Nat.shiftRight_eq_div_pow]
    have := Nat.div_add_mod y (2 ^ k); omega
  rw [h1, h2]
  apply Nat.eq_of_testBit_eq
  intro i
  rw [Nat.testBit_and, Nat.testBit_mul_pow_two, Nat.testBit_mul_pow_two,
    Nat.testBit_two_pow_sub_one, Nat.testBit_shiftRight]
  by_cases hi : k ≤ i
  · have e : k + (i - k) = i := by omega
    by_cases h64 : i < 64
    · have : i - k < 64 - k := by omega
      simp [hi, this, e]
    · have : y.testBit i = false := by
        apply Nat.testBit_lt_two_pow
        exact lt_of_lt_of_le hy (Nat.pow_le_pow_right (by norm_num) (by omega))
      simp [hi, e, this]
  · simp [hi]

theorem spec_alignUp_eq (x a : Nat) (ha : 0 < a) :
    spec_alignUp x a = (x + a - 1) - (x + a - 1) % a := by
  unfold spec_alignUp
  have := Nat.div_add_mod (x + a - 1) a
  rw [Nat.mul_comm]; omega

theorem spec_alignUp_dvd (x a : Nat) : a ∣ spec_alignUp x a :=
  Dvd.intro_left _ rfl

theorem spec_alignUp_ge (x a : Nat) (ha : 0 < a) : x ≤ spec_alignUp x a := by
  rw [spec_alignUp_eq x a ha]
  have := Nat.mod_lt (x + a - 1) ha
  omega

theorem spec_alignUp_lt (x a : Nat) (ha : 0 < a) : spec_alignUp x a < x + a := by
  rw [spec_alignUp_eq x a ha]
  omega

theorem spec_alignUp_least (x a q : Nat) (ha : 0 < a) (hq : x ≤ q) (hd : a ∣ q) :
    spec_alignUp x a ≤ q := by
  obtain ⟨c, rfl⟩ := hd
  unfold spec_alignUp
  rw [Nat.mul_comm a c]
  apply Nat.mul_le_mul_right
  apply Nat.le_of_lt_succ
  rw [Nat.div_lt_iff_lt_mul ha]
  rw [Nat.succ_mul]
  rw [Nat.mul_comm] at hq
  omega

theorem spec_alignUp_of_dvd (x a : Nat) (ha : 0 < a) (hd : a ∣ x) : spec_alignUp x a = x := by
  apply Nat.le_antisymm
  · exact spec_alignUp_least x a x ha (Nat.le_refl _) hd
  · exact spec_alignUp_ge x a ha

theorem spec_alignUp_add_of_dvd (b x a : Nat) (ha : 0 < a) (hd : a ∣ b) :
    spec_alignUp (b + x) a = b + spec_alignUp x a := by
  obtain ⟨c, rfl⟩ := hd
  unfold spec_alignUp
  have : a * c + x + a - 1 = (x + a - 1) + a * c := by omega
  rw [this, Nat.add_mul_div_left _ _ ha, Nat.add_mul, Nat.mul_comm c a, Nat.add_comm]

/-- An aligned address below `2 ^ 64` leaves room for `alignment - 1` more bytes. -/
theorem room_of_alignUp_lt (x k : Nat) (hk : k < 64) (h : spec_alignUp x (2 ^ k) < 2 ^ 64) :
    x + 2 ^ k - 1 < 2 ^ 64 := by
  have ha : 0 < 2 ^ k := Nat.pow_pos (by norm_num)
  have h1 : 2 ^ k ∣ 2 ^ 64 - spec_alignUp x (2 ^ k) :=
    Nat.dvd_sub' (Nat.pow_dvd_pow 2 (by omega)) (spec_alignUp_dvd _ _)
  have h2 : 2 ^ k ≤ 2 ^ 64 - spec_alignUp x (2 ^ k) := Nat.le_of_dvd (by omega) h1
  have h3 := spec_alignUp_lt x (2 ^ k) ha
  have h4 := spec_alignUp_ge x (2 ^ k) ha
  have h5 : x + 2 ^ k - 1 ≤ spec_alignUp x (2^k) + 2^k - 1 := by omega
  omega

/-- What `std::align` computes for a power-of-two alignment when the aligned
address is representable. -/
theorem std_align_eq (k size ptr space : Nat) (hk : k < 64)
    (h : spec_alignUp ptr (2 ^ k) < 2 ^ 64) :
    std_align (2 ^ k) size ptr space =
      if space < size ∨ spec_alignUp ptr (2 ^ k) - ptr > space - size then ⟨0, ptr, space⟩
      else ⟨spec_alignUp ptr (2 ^ k), spec_alignUp ptr (2 ^ k),
            space - (spec_alignUp ptr (2 ^ k) - ptr)⟩ := by
  have ha : 0 < 2 ^ k := Nat.pow_pos (by norm_num)
  have hroom := room_of_alignUp_lt ptr k hk h
  have hge := spec_alignUp_ge ptr (2 ^ k) ha
  have hlt : 2 ^ k < 2 ^ 64 := Nat.pow_lt_pow_right (by norm_num) hk
  have e1 : wrap (ptr + (2 ^ 64 - 1) + 2 ^ k) = ptr + 2 ^ k - 1 := by
    unfold wrap
    have : ptr + (2 ^ 64 - 1) + 2 ^ k = (ptr + 2 ^ k - 1) + 2 ^ 64 := by omega
    rw [this, Nat.add_mod_right, Nat.mod_eq_of_lt hroom]
  have e2 : wrap (2 ^ 64 - 2 ^ k) = 2 ^ 64 - 2 ^ k := by
    unfold wrap; exact Nat.mod_eq_of_lt (by omega)
  have e3 : wrap (ptr + (2 ^ 64 - 1) + 2 ^ k) &&& wrap (2 ^ 64 - 2 ^ k)
      = spec_alignUp ptr (2 ^ k) := by
    rw [e1, e2, mask_eq_sub_mod k (by omega) _ hroom, spec_alignUp_eq _ _ ha]
  have e4 : wrap (spec_alignUp ptr (2 ^ k) + 2 ^ 64 - ptr) = spec_alignUp ptr (2 ^ k) - ptr := by
    unfold wrap
    have : spec_alignUp ptr (2 ^ k) + 2 ^ 64 - ptr = (spec_alignUp ptr (2 ^ k) - ptr) + 2 ^ 64 := by
      omega
    rw [this, Nat.add_mod_right, Nat.mod_eq_of_lt (by omega)]
  unfold std_align
  simp only [e3, e4]
  by_cases h1 : space < size
  · simp [h1]
  · simp [h1]

/-- The function `align<T>` on a representable aligned address is `alignUp`. -/
theorem align_eq (T : Ty) (k p : Nat) (hk : k < 64) (ha : T.align = 2 ^ k)
    (h : spec_alignUp p (2 ^ k) < 2 ^ 64) : align T p = spec_alignUp p (2 ^ k) := by
  have hge := spec_alignUp_ge p (2 ^ k) (Nat.pow_pos (by norm_num))
  unfold align
  rw [ha, std_align_eq k 0 p SIZE_MAX hk h]
  have : ¬ (SIZE_MAX < 0 ∨ spec_alignUp p (2 ^ k) - p > SIZE_MAX - 0) := by
    unfold SIZE_MAX; omega
  rw [if_neg this]

/-- The byte count of a builder whose exact byte count is representable. -/
theorem numBytes_eq (b : ArrayBuilder) (h : b.m_size * b.T.size < 2 ^ 64) :
    b.numBytes = b.m_size * b.T.size := by
  unfold ArrayBuilder.numBytes wrap
  exact Nat.mod_eq_of_lt h

/-- The value of `numRequiredBytes` at a non-zero offset, without overflow. -/
theorem numRequiredBytes_eq (b : ArrayBuilder) (k o : Nat) (hk : k < 64)
    (ha : b.T.align = 2 ^ k) (ho : 0 < o)
    (h1 : spec_alignUp o b.T.align < 2 ^ 64)
    (h2 : spec_alignUp o b.T.align - o + b.m_size * b.T.size < 2 ^ 64) :
    b.numRequiredBytes o = .ok (b, spec_requiredBytes b.T b.m_size o) := by
  rw [ha] at h1 h2
  have hpos : 0 < 2 ^ k := Nat.pow_pos (by norm_num)
  have hge := spec_alignUp_ge o (2 ^ k) hpos
  have hB : b.numBytes = b.m_size * b.T.size := numBytes_eq b (by omega)
  have ho' : wrap (0 + o) = o := by
    unfold wrap; rw [Nat.zero_add]; exact Nat.mod_eq_of_lt (by omega)
  unfold ArrayBuilder.numRequiredBytes spec_requiredBytes
  simp only [ho', ha, hB]
  rw [std_align_eq k _ o SIZE_MAX hk h1]
  have hc : ¬ (SIZE_MAX < b.m_size * b.T.size ∨
      spec_alignUp o (2 ^ k) - o > SIZE_MAX - b.m_size * b.T.size) := by
    unfold SIZE_MAX; omega
  rw [if_neg hc]
  have hne : ¬ (spec_alignUp o (2 ^ k) = 0) := by omega
  simp only [hne, if_false]
  have e1 : wrap (SIZE_MAX + 2 ^ 64 - (SIZE_MAX - (spec_alignUp o (2 ^ k) - o)))
      = spec_alignUp o (2 ^ k) - o := by
    unfold wrap SIZE_MAX
    have : 2 ^ 64 - 1 + 2 ^ 64 - (2 ^ 64 - 1 - (spec_alignUp o (2 ^ k) - o))
        = (spec_alignUp o (2 ^ k) - o) + 2 ^ 64 := by omega
    rw [this, Nat.add_mod_right, Nat.mod_eq_of_lt (by omega)]
  rw [e1]
  unfold wrap
  rw [Nat.mod_eq_of_lt h2]

/-- The loop over `n` elements of positive size starting at `first`. -/
theorem ptrRange_eq (size first n : Nat) (hs : 0 < size) :
    ptrRange size first (first + n * size)
      = some ((List.range n).map (fun i => first + i * size)) := by
  unfold ptrRange
  by_cases hn : n = 0
  · subst hn; simp
  · have hpos : 0 < n * size := Nat.mul_pos (Nat.pos_of_ne_zero hn) hs
    have h1 : ¬ (first = first + n * size) := by omega
    have h2 : first < first + n * size ∧ 0 < size ∧ (first + n * size - first) % size = 0 := by
      refine ⟨by omega, hs, ?_⟩
      rw [Nat.add_sub_cancel_left]; exact Nat.mul_mod_left n size
    rw [if_neg h1, if_pos h2, Nat.add_sub_cancel_left, Nat.mul_div_cancel _ hs]

/-- What `consume` does at a non-null cursor with enough capacity, when the
end of the region is representable. -/
theorem consume_eq (b : ArrayBuilder) (k c s : Nat) (hk : k < 64) (ha : b.T.align = 2 ^ k)
    (hc : 0 < c) (hs : s < 2 ^ 64)
    (hend : spec_alignUp c b.T.align + b.m_size * b.T.size < 2 ^ 64)
    (hcap : spec_alignUp c b.T.align - c + b.m_size * b.T.size ≤ s) :
    b.consume c s = .ok
      ⟨{ b with m_ptr := spec_alignUp c b.T.align },
       spec_alignUp c b.T.align + b.m_size * b.T.size,
       s - (spec_alignUp c b.T.align - c) - b.m_size * b.T.size,
       ptrRange b.T.size (spec_alignUp c b.T.align)
         (spec_alignUp c b.T.align + b.m_size * b.T.size)⟩ := by
  rw [ha] at hend hcap
  have hpos : 0 < 2 ^ k := Nat.pow_pos (by norm_num)
  have hge := spec_alignUp_ge c (2 ^ k) hpos
  have hB : b.numBytes = b.m_size * b.T.size := numBytes_eq b (by omega)
  have hcond : ¬ (s < b.m_size * b.T.size ∨
      spec_alignUp c (2 ^ k) - c > s - b.m_size * b.T.size) := by omega
  have hne : ¬ (spec_alignUp c (2 ^ k) = 0) := by omega
  have e1 : wrap (s - (spec_alignUp c (2 ^ k) - c) + 2 ^ 64 - b.m_size * b.T.size)
      = s - (spec_alignUp c (2 ^ k) - c) - b.m_size * b.T.size := by
    unfold wrap
    have : s - (spec_alignUp c (2 ^ k) - c) + 2 ^ 64 - b.m_size * b.T.size
        = (s - (spec_alignUp c (2 ^ k) - c) - b.m_size * b.T.size) + 2 ^ 64 := by omega
    rw [this, Nat.add_mod_right, Nat.mod_eq_of_lt (by omega)]
  have e2 : wrap (spec_alignUp c (2 ^ k) + b.m_size * b.T.size)
      = spec_alignUp c (2 ^ k) + b.m_size * b.T.size := by
    unfold wrap; exact Nat.mod_eq_of_lt hend
  have hB' : ∀ p, ArrayBuilder.numBytes { T := b.T, m_size := b.m_size, m_ptr := p }
      = b.m_size * b.T.size := fun p => hB
  unfold ArrayBuilder.consume
  simp only [ha, hB, std_align_eq k _ c s hk (by omega), if_neg hcond, hne, if_false,
    hB', e1, incr, e2, ArrayBuilder.begin, ArrayBuilder.end_]

/-- What `consume` does at a cursor whose capacity is too small. -/
theorem consume_fail (b : ArrayBuilder) (k c s : Nat) (hk : k < 64) (ha : b.T.align = 2 ^ k)
    (hup : spec_alignUp c b.T.align < 2 ^ 64) (hn : b.m_size * b.T.size < 2 ^ 64)
    (hcap : s < spec_alignUp c b.T.align - c + b.m_size * b.T.size) :
    b.consume c s = .error (.assert_m_ptr c s) := by
  rw [ha] at hup hcap
  have hB : b.numBytes = b.m_size * b.T.size := numBytes_eq b hn
  have hcond : s < b.m_size * b.T.size ∨
      spec_alignUp c (2 ^ k) - c > s - b.m_size * b.T.size := by omega
  unfold ArrayBuilder.consume
  simp only [ha, hB, std_align_eq k _ c s hk hup, if_pos hcond, if_true]

/-- The function `align<T>` in terms of `std::align` at a known alignment. -/
theorem align_of_eq (T : Ty) (a p : Nat) (h : T.align = a) :
    align T p = (std_align a 0 p SIZE_MAX).r := by
  subst h
  unfold align
  exact Eq.refl _

/-- The call `std::align(2 ^ 64, 0, nullptr, SIZE_MAX)` returns the null pointer. -/
theorem std_align_pow64 : (std_align (2 ^ 64) 0 0 SIZE_MAX).r = 0 := by
  have h : std_align (2 ^ 64) 0 0 SIZE_MAX = ⟨0, 0, SIZE_MAX⟩ := by decide
  exact congrArg AlignResult.r h

/-! ### The two passes of `niw` -/

theorem alignmentsOk_tail (x : Ty × Nat) (l : List (Ty × Nat)) (h : alignmentsOk (x :: l)) :
    alignmentsOk l :=
  fun y hy => h y (List.mem_cons_of_mem _ hy)

theorem alignmentsOk_head (x : Ty × Nat) (l : List (Ty × Nat)) (h : alignmentsOk (x :: l)) :
    ∃ k, k < 64 ∧ x.1.align = 2 ^ k :=
  h x (List.mem_cons_self _ _)

theorem spec_regionsEnd_ge (l : List (Ty × Nat)) (h : alignmentsOk l) (start : Nat) :
    start ≤ spec_regionsEnd l start := by
  induction l generalizing start with
  | nil => exact Nat.le_refl _
  | cons x l ih =>
    obtain ⟨T, n⟩ := x
    obtain ⟨k, _, hk⟩ := alignmentsOk_head _ _ h
    have hpos : 0 < T.align := by simp only at hk; rw [hk]; exact Nat.pow_pos (by norm_num)
    have h1 := spec_alignUp_ge start T.align hpos
    have h2 := ih (alignmentsOk_tail _ _ h) (spec_alignUp start T.align + n * T.size)
    simp only [spec_regionsEnd]
    omega

theorem spec_regionsEnd_shift (l : List (Ty × Nat)) (h : alignmentsOk l) (base : Nat)
    (hb : ∀ x ∈ l, x.1.align ∣ base) (o : Nat) :
    spec_regionsEnd l (base + o) = base + spec_regionsEnd l o := by
  induction l generalizing o with
  | nil => rfl
  | cons x l ih =>
    obtain ⟨T, n⟩ := x
    obtain ⟨k, _, hk⟩ := alignmentsOk_head _ _ h
    have hpos : 0 < T.align := by simp only at hk; rw [hk]; exact Nat.pow_pos (by norm_num)
    have hd : T.align ∣ base := hb (T, n) (List.mem_cons_self _ _)
    simp only [spec_regionsEnd]
    rw [spec_alignUp_add_of_dvd base o T.align hpos hd, Nat.add_assoc]
    exact ih (alignmentsOk_tail _ _ h) (fun y hy => hb y (List.mem_cons_of_mem _ hy)) _

theorem spec_total_eq (hdr : Nat) (l : List (Ty × Nat)) (h : alignmentsOk l) (t : Nat) :
    hdr + spec_totalTrailingBytes hdr l t = spec_regionsEnd l (hdr + t) := by
  induction l generalizing t with
  | nil => rfl
  | cons x l ih =>
    obtain ⟨T, n⟩ := x
    obtain ⟨k, _, hk⟩ := alignmentsOk_head _ _ h
    have hpos : 0 < T.align := by simp only at hk; rw [hk]; exact Nat.pow_pos (by norm_num)
    have h1 := spec_alignUp_ge (hdr + t) T.align hpos
    simp only [spec_regionsEnd, spec_totalTrailingBytes]
    rw [ih (alignmentsOk_tail _ _ h)]
    congr 1
    unfold spec_requiredBytes
    omega

/-- The plan pass computes the specification's total and leaves `pi` as it was. -/
theorem planPass_eq (hdr : Nat) (pi : List PreImpl) (n : Nat) (h : alignmentsOk (regions pi))
    (hpos : 0 < hdr + n) (hend : spec_regionsEnd (regions pi) (hdr + n) < 2 ^ 64) :
    planPass hdr pi n = .ok (pi, spec_totalTrailingBytes hdr (regions pi) n) := by
  induction pi generalizing n with
  | nil => rfl
  | cons u pi ih =>
    cases u with
    | value T v =>
      have := ih n h hpos hend
      simp only [planPass, this]
      rfl
    | builder b =>
      have h' : alignmentsOk ((b.T, b.m_size) :: regions pi) := h
      have hend' : spec_regionsEnd (regions pi)
          (spec_alignUp (hdr + n) b.T.align + b.m_size * b.T.size) < 2 ^ 64 := hend
      obtain ⟨k, hk, hka⟩ := alignmentsOk_head _ _ h'
      have hka' : b.T.align = 2 ^ k := hka
      have hapos : 0 < b.T.align := by rw [hka']; exact Nat.pow_pos (by norm_num)
      have h1 := spec_alignUp_ge (hdr + n) b.T.align hapos
      have h2 := spec_regionsEnd_ge (regions pi) (alignmentsOk_tail _ _ h')
        (spec_alignUp (hdr + n) b.T.align + b.m_size * b.T.size)
      have hw : wrap (hdr + n) = hdr + n := by
        unfold wrap; exact Nat.mod_eq_of_lt (by omega)
      have hreq := numRequiredBytes_eq b k (hdr + n) hk hka' hpos (by omega) (by omega)
      have hw2 : wrap (n + spec_requiredBytes b.T b.m_size (hdr + n))
          = n + spec_requiredBytes b.T b.m_size (hdr + n) := by
        unfold wrap spec_requiredBytes; exact Nat.mod_eq_of_lt (by omega)
      have hsum : hdr + (n + spec_requiredBytes b.T b.m_size (hdr + n))
          = spec_alignUp (hdr + n) b.T.align + b.m_size * b.T.size := by
        unfold spec_requiredBytes; omega
      have := ih (n + spec_requiredBytes b.T b.m_size (hdr + n)) (alignmentsOk_tail _ _ h')
        (by omega) (by rw [hsum]; exact hend')
      simp only [planPass, hw, hreq, hw2, this]
      rfl

/-- The construct pass places the regions one after the other by `alignUp`
and takes from the capacity exactly the bytes between the cursor and the end
of the last region. -/
theorem constructPass_eq (pi : List PreImpl) (c s : Nat) (h : alignmentsOk (regions pi))
    (hc : 0 < c) (hs : s < 2 ^ 64) (hend : spec_regionsEnd (regions pi) c < 2 ^ 64)
    (hcap : spec_regionsEnd (regions pi) c - c ≤ s) :
    constructPass pi c s = .ok
      ⟨placed pi c, spec_regionsEnd (regions pi) c,
       s - (spec_regionsEnd (regions pi) c - c), elementLoops (placed pi c)⟩ := by
  induction pi generalizing c s with
  | nil => simp [constructPass, placed, regions, builders, spec_regionsEnd, elementLoops]
  | cons u pi ih =>
    cases u with
    | value T v =>
      have hcons := ih c s h hc hs hend hcap
      simp only [constructPass, hcons, placed]
      rfl
    | builder b =>
      have h' : alignmentsOk ((b.T, b.m_size) :: regions pi) := h
      have hend' : spec_regionsEnd (regions pi)
          (spec_alignUp c b.T.align + b.m_size * b.T.size) < 2 ^ 64 := hend
      have hcap' : spec_regionsEnd (regions pi)
          (spec_alignUp c b.T.align + b.m_size * b.T.size) - c ≤ s := hcap
      obtain ⟨k, hk, hka⟩ := alignmentsOk_head _ _ h'
      have hka' : b.T.align = 2 ^ k := hka
      have hapos : 0 < b.T.align := by rw [hka']; exact Nat.pow_pos (by norm_num)
      have h1 := spec_alignUp_ge c b.T.align hapos
      have h2 := spec_regionsEnd_ge (regions pi) (alignmentsOk_tail _ _ h')
        (spec_alignUp c b.T.align + b.m_size * b.T.size)
      have hcon := consume_eq b k c s hk hka' hc hs (by omega) (by omega)
      have hcons := ih (spec_alignUp c b.T.align + b.m_size * b.T.size)
        (s - (spec_alignUp c b.T.align - c) - b.m_size * b.T.size)
        (alignmentsOk_tail _ _ h') (by omega) (by omega) hend' (by omega)
      simp only [constructPass, hcon, hcons, placed]
      have e : s - (spec_alignUp c b.T.align - c) - b.m_size * b.T.size
          - (spec_regionsEnd (regions pi) (spec_alignUp c b.T.align + b.m_size * b.T.size)
              - (spec_alignUp c b.T.align + b.m_size * b.T.size))
          = s - (spec_regionsEnd (regions ((PreImpl.builder b) :: pi)) c - c) := by
        have : spec_regionsEnd (regions ((PreImpl.builder b) :: pi)) c
            = spec_regionsEnd (regions pi)
                (spec_alignUp c b.T.align + b.m_size * b.T.size) := rfl
        rw [this]; omega
      rw [e]
      rfl

/-- The placeholders built from a declaration are its array slots. -/
theorem regions_converter (decl : List (Slot × Nat)) :
    regions (decl.map (fun d => PreImplConverter d.1 d.2)) = arraySlots decl := by
  induction decl with
  | nil => rfl
  | cons d decl ih =>
    obtain ⟨s, n⟩ := d
    cases s <;>
      simp [regions, builders, arraySlots, PreImplConverter, Slot.elem] at ih ⊢ <;>
      exact ih

/-- Placing keeps element types and counts. -/
theorem regions_placed (pi : List PreImpl) (c : Nat) : regions (placed pi c) = regions pi := by
  induction pi generalizing c with
  | nil => rfl
  | cons u pi ih =>
    cases u with
    | value T v => exact ih c
    | builder b =>
      simp only [placed, regions, builders, List.map_cons]
      exact congrArg _ (ih _)

/-- The header tuple can be built from the placed placeholders of a declaration. -/
theorem buildMembers_placed (decl : List (Slot × Nat)) (c : Nat) :
    ∃ ms, buildMembers (decl.map (fun d => d.1))
      (placed (decl.map (fun d => PreImplConverter d.1 d.2)) c) = some ms := by
  induction decl generalizing c with
  | nil => exact ⟨[], rfl⟩
  | cons d decl ih =>
    obtain ⟨s, n⟩ := d
    cases s with
    | value T =>
      obtain ⟨ms, hms⟩ := ih c
      show ∃ ms, buildMembers (Slot.value T :: decl.map (fun d => d.1))
        (placed (PreImpl.value T n :: decl.map (fun d => PreImplConverter d.1 d.2)) c) = some ms
      simp only [placed, buildMembers, TransformUnboundedArrays, Member.ofPreImpl, hms]
      exact ⟨_, rfl⟩
    | unbounded T =>
      obtain ⟨ms, hms⟩ := ih (spec_alignUp c T.align + n * T.size)
      show ∃ ms, buildMembers (Slot.unbounded T :: decl.map (fun d => d.1))
        (placed (PreImpl.builder ⟨T, n, 0⟩ :: decl.map (fun d => PreImplConverter d.1 d.2)) c)
          = some ms
      by_cases ht : T.trivial
      · simp only [placed, buildMembers, TransformUnboundedArrays, Member.ofPreImpl, hms, ht,
          if_true]
        exact ⟨_, rfl⟩
      · simp only [placed, buildMembers, TransformUnboundedArrays, Member.ofPreImpl, hms, ht]
        exact ⟨_, rfl⟩
    | unsizedArray T =>
      obtain ⟨ms, hms⟩ := ih (spec_alignUp c T.align + n * T.size)
      show ∃ ms, buildMembers (Slot.unsizedArray T :: decl.map (fun d => d.1))
        (placed (PreImpl.builder ⟨T, n, 0⟩ :: decl.map (fun d => PreImplConverter d.1 d.2)) c)
          = some ms
      simp only [placed, buildMembers, TransformUnboundedArrays, Member.ofPreImpl, hms]
      exact ⟨_, rfl⟩
    | sizedArray T =>
      obtain ⟨ms, hms⟩ := ih (spec_alignUp c T.align + n * T.size)
      show ∃ ms, buildMembers (Slot.sizedArray T :: decl.map (fun d => d.1))
        (placed (PreImpl.builder ⟨T, n, 0⟩ :: decl.map (fun d => PreImplConverter d.1 d.2)) c)
          = some ms
      simp only [placed, buildMembers, TransformUnboundedArrays, Member.ofPreImpl, hms]
      exact ⟨_, rfl⟩
    | adjacentArray T El =>
      obtain ⟨ms, hms⟩ := ih (spec_alignUp c T.align + n * T.size)
      show ∃ ms, buildMembers (Slot.adjacentArray T El :: decl.map (fun d => d.1))
        (placed (PreImpl.builder ⟨T, n, 0⟩ :: decl.map (fun d => PreImplConverter d.1 d.2)) c)
          = some ms
      simp only [placed, buildMembers, TransformUnboundedArrays, Member.ofPreImpl, hms]
      exact ⟨_, rfl⟩
    | sizedAdjacentArray T El =>
      obtain ⟨ms, hms⟩ := ih (spec_alignUp c T.align + n * T.size)
      show ∃ ms, buildMembers (Slot.sizedAdjacentArray T El :: decl.map (fun d => d.1))
        (placed (PreImpl.builder ⟨T, n, 0⟩ :: decl.map (fun d => PreImplConverter d.1 d.2)) c)
          = some ms
      simp only [placed, buildMembers, TransformUnboundedArrays, Member.ofPreImpl, hms]
      exact ⟨_, rfl⟩

/-- Both passes of `niw` on an aligned block: the plan pass returns the
specification's total, and the construct pass, started at the end of the
header with that capacity, places the regions and uses the capacity up. -/
theorem passes_ok (hdr base : Nat) (decl : List (Slot × Nat)) (hhdr : 0 < hdr)
    (hal : alignmentsOk (arraySlots decl))
    (hbase : ∀ x ∈ arraySlots decl, x.1.align ∣ base)
    (hno : base + spec_regionsEnd (arraySlots decl) hdr < 2 ^ 64) :
    planPass hdr (decl.map (fun d => PreImplConverter d.1 d.2)) 0
      = .ok (decl.map (fun d => PreImplConverter d.1 d.2),
             spec_totalTrailingBytes hdr (arraySlots decl) 0) ∧
    constructPass (decl.map (fun d => PreImplConverter d.1 d.2)) (wrap (base + hdr))
        (spec_totalTrailingBytes hdr (arraySlots decl) 0)
      = .ok ⟨placed (decl.map (fun d => PreImplConverter d.1 d.2)) (base + hdr),
             base + spec_regionsEnd (arraySlots decl) hdr, 0,
             elementLoops (placed (decl.map (fun d => PreImplConverter d.1 d.2)) (base + hdr))⟩ := by
  have hreg := regions_converter decl
  have htot := spec_total_eq hdr (arraySlots decl) hal 0
  rw [Nat.add_zero] at htot
  have hge := spec_regionsEnd_ge (arraySlots decl) hal hdr
  have hshift := spec_regionsEnd_shift (arraySlots decl) hal base hbase hdr
  constructor
  · have := planPass_eq hdr (decl.map (fun d => PreImplConverter d.1 d.2)) 0
      (by rw [hreg]; exact hal) (by omega) (by rw [hreg, Nat.add_zero]; omega)
    rw [hreg] at this
    exact this
  · have hw : wrap (base + hdr) = base + hdr := by
      unfold wrap; exact Nat.mod_eq_of_lt (by omega)
    have hcons := constructPass_eq (decl.map (fun d => PreImplConverter d.1 d.2))
      (base + hdr) (spec_totalTrailingBytes hdr (arraySlots decl) 0)
      (by rw [hreg]; exact hal) (by omega) (by omega) (by rw [hreg, hshift]; exact hno)
      (by rw [hreg, hshift]; omega)
    rw [hw, hcons, hreg, hshift]
    have : spec_totalTrailingBytes hdr (arraySlots decl) 0
        - (base + spec_regionsEnd (arraySlots decl) hdr - (base + hdr)) = 0 := by omega
    rw [this]

/-- On an aligned block `niw` passes all its assertions and returns an
instance at the block's address, its header built from the placed placeholders. -/
theorem niw_ok (hdr base : Nat) (heap : Heap) (decl : List (Slot × Nat)) (hhdr : 0 < hdr)
    (hal : alignmentsOk (arraySlots decl))
    (hbase : ∀ x ∈ arraySlots decl, x.1.align ∣ base)
    (hno : base + spec_regionsEnd (arraySlots decl) hdr < 2 ^ 64) :
    ∃ ms,
      buildMembers (decl.map (fun d => d.1))
        (placed (decl.map (fun d => PreImplConverter d.1 d.2)) (base + hdr)) = some ms ∧
      niw hdr heap base decl = .ok (some
        ⟨⟨base, hdr, ms⟩, hdr + spec_totalTrailingBytes hdr (arraySlots decl) 0,
         elementLoops (placed (decl.map (fun d => PreImplConverter d.1 d.2)) (base + hdr)),
         (base, hdr + spec_totalTrailingBytes hdr (arraySlots decl) 0) :: heap⟩) := by
  obtain ⟨hplan, hcons⟩ := passes_ok hdr base decl hhdr hal hbase hno
  obtain ⟨ms, hms⟩ := buildMembers_placed decl (base + hdr)
  have htot := spec_total_eq hdr (arraySlots decl) hal 0
  rw [Nat.add_zero] at htot
  have hw : wrap (hdr + spec_totalTrailingBytes hdr (arraySlots decl) 0)
      = hdr + spec_totalTrailingBytes hdr (arraySlots decl) 0 := by
    unfold wrap; exact Nat.mod_eq_of_lt (by omega)
  refine ⟨ms, hms, ?_⟩
  unfold niw
  simp only [hplan, hcons, hw, hms, operator_new, if_true, Option.map_some']

/-- The first placed region starts at the aligned cursor. -/
theorem placed_head (pi : List PreImpl) (c : Nat) (b0 : ArrayBuilder)
    (h : (builders (placed pi c)).head? = some b0) :
    b0.begin = spec_alignUp c b0.T.align := by
  induction pi generalizing c with
  | nil => simp [placed, builders] at h
  | cons u pi ih =>
    cases u with
    | value T v => exact ih c h
    | builder b =>
      simp only [placed, builders, List.head?_cons, Option.some.injEq] at h
      subst h
      rfl

/-- Each later placed region starts at the aligned end of the region before it. -/
theorem placed_next (pi : List PreImpl) (c i : Nat) (b b' : ArrayBuilder)
    (h : (builders (placed pi c))[i]? = some b)
    (h' : (builders (placed pi c))[i + 1]? = some b') :
    b'.begin = spec_alignUp (b.begin + b.m_size * b.T.size) b'.T.align := by
  induction pi generalizing c i with
  | nil => simp [placed, builders] at h
  | cons u pi ih =>
    cases u with
    | value T v => exact ih c i h h'
    | builder b0 =>
      simp only [placed, builders] at h h'
      cases i with
      | zero =>
        simp only [List.getElem?_cons_zero, Option.some.injEq] at h
        simp only [Nat.zero_add, List.getElem?_cons_succ] at h'
        subst h
        have hh : (builders (placed pi (spec_alignUp c b0.T.align + b0.m_size * b0.T.size))).head?
            = some b' := by
          rw [List.head?_eq_getElem?]; exact h'
        exact placed_head pi _ b' hh
      | succ j =>
        simp only [List.getElem?_cons_succ] at h h'
        exact ih _ j h h'

/-- What `consume` does at a non-null cursor with enough capacity: its
assertion holds. -/
theorem consume_ok_of_capacity (b : ArrayBuilder) (k c s : Nat) (hk : k < 64)
    (ha : b.T.align = 2 ^ k) (hc : 0 < c)
    (hup : spec_alignUp c b.T.align < 2 ^ 64) (hn : b.m_size * b.T.size < 2 ^ 64)
    (hcap : spec_alignUp c b.T.align - c + b.m_size * b.T.size ≤ s) :
    ∃ r, b.consume c s = .ok r := by
  rw [ha] at hup hcap
  have hge := spec_alignUp_ge c (2 ^ k) (Nat.pow_pos (by norm_num))
  have hB : b.numBytes = b.m_size * b.T.size := numBytes_eq b hn
  have hcond : ¬ (s < b.m_size * b.T.size ∨
      spec_alignUp c (2 ^ k) - c > s - b.m_size * b.T.size) := by omega
  have hne : ¬ (spec_alignUp c (2 ^ k) = 0) := by omega
  unfold ArrayBuilder.consume
  simp only [ha, hB, std_align_eq k _ c s hk hup, if_neg hcond, hne, if_false]
  exact ⟨_, rfl⟩

/-! ### Properties of the build -/

/-- C1. Plan/construct agreement in `niw`: for every declaration (slots with
their counts), if the block's base address is a multiple of every array slot's
element alignment and the end of the block is representable (no `size_t` sum
overflows), then the plan pass returns a total, the construct pass started at
`base + sizeof(header)` with that total as capacity never fails `consume`'s
`assert(m_ptr)` and leaves the capacity exactly `0`, and `niw` returns an
instance (so `assert(numBytesForArrays == 0)` holds too). -/
theorem niw_plan_construct_agreement (hdr base : Nat) (heap : Heap) (decl : List (Slot × Nat))
    (hhdr : 0 < hdr) (hal : alignmentsOk (arraySlots decl))
    (hbase : ∀ x ∈ arraySlots decl, x.1.align ∣ base)
    (hno : base + spec_regionsEnd (arraySlots decl) hdr < 2 ^ 64) :
    ∃ pi total st,
      planPass hdr (decl.map (fun d => PreImplConverter d.1 d.2)) 0 = .ok (pi, total) ∧
      constructPass pi (wrap (base + hdr)) total = .ok st ∧
      st.numBytesForArrays = 0 ∧
      ∃ built, niw hdr heap base decl = .ok (some built) := by
  obtain ⟨hplan, hcons⟩ := passes_ok hdr base decl hhdr hal hbase hno
  obtain ⟨ms, _, hniw⟩ := niw_ok hdr base heap decl hhdr hal hbase hno
  exact ⟨_, _, _, hplan, hcons, rfl, _, hniw⟩

/-- The scenario of the specification has power-of-two alignments. -/
theorem scenario_alignmentsOk : alignmentsOk (arraySlots scenario) := by
  intro x hx
  simp only [arraySlots, scenario, Slot.elem, List.filterMap_cons, Option.map_none',
    Option.map_some', List.filterMap_nil, List.mem_cons, List.mem_singleton,
    List.not_mem_nil, or_false] at hx
  rcases hx with rfl | rfl
  · exact ⟨0, by norm_num, rfl⟩
  · exact ⟨3, by norm_num, rfl⟩

/-- The scenario's alignments divide the block address `4096`. -/
theorem scenario_base_aligned : ∀ x ∈ arraySlots scenario, x.1.align ∣ 4096 := by
  intro x hx
  simp only [arraySlots, scenario, Slot.elem, List.filterMap_cons, Option.map_none',
    Option.map_some', List.filterMap_nil, List.mem_cons, List.mem_singleton,
    List.not_mem_nil, or_false] at hx
  rcases hx with rfl | rfl
  · exact ⟨4096, rfl⟩
  · exact ⟨512, rfl⟩

/-- C1 at the scenario of the specification, header of 32 bytes at `4096`. -/
theorem niw_plan_construct_agreement_witness :
    0 < 32 ∧ alignmentsOk (arraySlots scenario) ∧
    (∀ x ∈ arraySlots scenario, x.1.align ∣ 4096) ∧
    4096 + spec_regionsEnd (arraySlots scenario) 32 < 2 ^ 64 ∧
    ∃ pi total st,
      planPass 32 (scenario.map (fun d => PreImplConverter d.1 d.2)) 0 = .ok (pi, total) ∧
      constructPass pi (wrap (4096 + 32)) total = .ok st ∧
      st.numBytesForArrays = 0 ∧
      ∃ built, niw 32 [] 4096 scenario = .ok (some built) :=
  ⟨by decide, scenario_alignmentsOk, scenario_base_aligned, by decide,
    niw_plan_construct_agreement 32 4096 [] scenario (by decide) scenario_alignmentsOk
      scenario_base_aligned (by decide)⟩

/-- C2. Region layout produced by `niw` on an aligned block: the placeholders
after the construct pass are the declaration's array slots in declaration
order (value slots add none); the begin recorded for the first one is
`alignUp(base + sizeof(header), alignof(T0))`, and the begin recorded for every
later one is `alignUp` of the end of the region before it, which is that
region's begin plus count times element size. -/
theorem niw_region_layout (hdr base : Nat) (decl : List (Slot × Nat))
    (hhdr : 0 < hdr) (hal : alignmentsOk (arraySlots decl))
    (hbase : ∀ x ∈ arraySlots decl, x.1.align ∣ base)
    (hno : base + spec_regionsEnd (arraySlots decl) hdr < 2 ^ 64) :
    ∃ pi total st,
      planPass hdr (decl.map (fun d => PreImplConverter d.1 d.2)) 0 = .ok (pi, total) ∧
      constructPass pi (wrap (base + hdr)) total = .ok st ∧
      (builders st.pi).map (fun b => (b.T, b.m_size)) = arraySlots decl ∧
      (∀ b0, (builders st.pi).head? = some b0 →
        b0.begin = spec_alignUp (base + hdr) b0.T.align) ∧
      (∀ i b b', (builders st.pi)[i]? = some b → (builders st.pi)[i + 1]? = some b' →
        b'.begin = spec_alignUp (b.begin + b.m_size * b.T.size) b'.T.align) := by
  obtain ⟨hplan, hcons⟩ := passes_ok hdr base decl hhdr hal hbase hno
  refine ⟨_, _, _, hplan, hcons, ?_, ?_, ?_⟩
  · have h1 := regions_placed (decl.map (fun d => PreImplConverter d.1 d.2)) (base + hdr)
    rw [regions_converter] at h1
    exact h1
  · intro b0 h
    exact placed_head _ _ b0 h
  · intro i b b' h h'
    exact placed_next _ _ i b b' h h'

/-- C2 at the scenario of the specification, header of 32 bytes at `4096`: the
byte slot begins at the header's end `4128`, the item slot at
`alignUp(4128 + 5, 8) = 4136`. -/
theorem niw_region_layout_witness :
    (0 < 32 ∧ alignmentsOk (arraySlots scenario) ∧
    (∀ x ∈ arraySlots scenario, x.1.align ∣ 4096) ∧
    4096 + spec_regionsEnd (arraySlots scenario) 32 < 2 ^ 64) ∧
    (∃ pi total st,
      planPass 32 (scenario.map (fun d => PreImplConverter d.1 d.2)) 0 = .ok (pi, total) ∧
      constructPass pi (wrap (4096 + 32)) total = .ok st ∧
      (builders st.pi).map (fun b => (b.T, b.m_size)) = arraySlots scenario ∧
      (∀ b0, (builders st.pi).head? = some b0 →
        b0.begin = spec_alignUp (4096 + 32) b0.T.align) ∧
      (∀ i b b', (builders st.pi)[i]? = some b → (builders st.pi)[i + 1]? = some b' →
        b'.begin = spec_alignUp (b.begin + b.m_size * b.T.size) b'.T.align)) ∧
    constructPass (scenario.map (fun d => PreImplConverter d.1 d.2)) (wrap (4096 + 32)) 32
      = .ok ⟨[.value int32 7, .builder ⟨byte, 5, 4128⟩, .builder ⟨NonTrivial, 3, 4136⟩],
             4160, 0, [some [4128, 4129, 4130, 4131, 4132], some [4136, 4144, 4152]]⟩ ∧
    4128 = 4096 + 32 ∧ 4136 = spec_alignUp (4128 + 5) NonTrivial.align :=
  ⟨⟨by decide, scenario_alignmentsOk, scenario_base_aligned, by decide⟩,
    niw_region_layout 32 4096 scenario (by decide) scenario_alignmentsOk
      scenario_base_aligned (by decide),
    rfl, rfl, rfl⟩

/-- C3 (code at the failing input). For the scenario of the specification, built
with a 32-byte header at `4096`, the `SizedArray` slot 2 holds 3 elements and
stores `m_begin = 4136`, `m_end = 4160`, but the public accessor `end<2>()`
returns `4136`, the same address as `begin<2>()`: `end<e>()` is written as
`std::get<e>(*this).begin(this)`, so `end<2>() - begin<2>()` is `0` and not `3`,
and `end<2>()` is not the stored end address. -/
theorem end_accessor_returns_begin :
    ∃ built, niw 32 [] 4096 scenario = .ok (some built) ∧
      built.instance_.members[2]? = some (.sizedArray NonTrivial 4136 4160) ∧
      built.instance_.begin 2 = some 4136 ∧
      built.instance_.end_ 2 = some 4136 ∧
      (Member.sizedArray NonTrivial 4136 4160).end_ = some 4160 :=
  ⟨_, rfl, rfl, rfl, rfl, rfl⟩

/-- C4 (code at the failing input). For `FlexibleLayoutClass<byte[],
SizedAdjacentArray<NonTrivial, 0>>` built with `(3, 2)`, 16-byte header at
`4096`: the anchor's region is `[4112, 4115)`, `niw` constructs the adjacent
slot's elements at `alignUp(4115, 8) = 4120`, but `begin<1>()` returns `4112`,
the aligned begin of the anchor, because `end<0>()` returns the anchor's begin. -/
theorem adjacent_begin_uses_anchor_begin :
    ∃ built, niw 16 [] 4096 anchored = .ok (some built) ∧
      built.constructed = [some [4112, 4113, 4114], some [4120, 4128]] ∧
      built.instance_.begin 0 = some 4112 ∧
      spec_alignUp (4112 + 3 * byte.size) NonTrivial.align = 4120 ∧
      built.instance_.begin 1 = some 4112 :=
  ⟨_, rfl, rfl, rfl, rfl, rfl⟩

/-- C5 (code at the failing input). For `FlexibleLayoutClass<byte[],
SizedAdjacentArray<NonTrivial, 0>>` built with `(3, 2)`, 16-byte header at
`4096`: `niw` constructs the two `NonTrivial` elements at `4120` and `4128`,
and `deleet` runs `std::destroy` from `begin(p) = 4112` to `end(p) = 4136`,
that is on `4112`, `4120` and `4128`: the address `4112`, inside the byte
array, is destroyed although no element was constructed there. -/
theorem deleet_destroys_unconstructed :
    ∃ built, niw 16 [] 4096 anchored = .ok (some built) ∧
      built.constructed = [some [4112, 4113, 4114], some [4120, 4128]] ∧
      deleet built.heap (some built.instance_)
        = some ⟨[some [4112, 4120, 4128]], true, []⟩ :=
  ⟨_, rfl, rfl, rfl⟩

/-- C6. For every address `p` and every alignment `a = alignof(T)` that is a
power of two with `p + a - 1` representable, `align<T>(p)` is `alignUp(p, a)`:
an address not below `p`, a multiple of `a`, not above any other such address;
it is less than `a` away from `p`, and aligning it again returns it. -/
theorem align_smallest_aligned (T : Ty) (k p : Nat) (ha : T.align = 2 ^ k)
    (hp : p + T.align - 1 < 2 ^ 64) :
    align T p = spec_alignUp p T.align ∧ p ≤ align T p ∧ T.align ∣ align T p ∧
    (∀ q, p ≤ q → T.align ∣ q → align T p ≤ q) ∧ align T p - p < T.align ∧
    align T (align T p) = align T p := by
  have hpos : 0 < T.align := by rw [ha]; exact Nat.pow_pos (by norm_num)
  by_cases hk : k < 64
  · have hup : spec_alignUp p (2 ^ k) < 2 ^ 64 := by
      have := spec_alignUp_eq p (2 ^ k) (Nat.pow_pos (by norm_num))
      rw [ha] at hp
      omega
    have e := align_eq T k p hk ha hup
    rw [← ha] at e hup
    have hd := spec_alignUp_dvd p T.align
    have e2 : align T (spec_alignUp p T.align) = spec_alignUp p T.align := by
      have h3 := spec_alignUp_of_dvd (spec_alignUp p T.align) T.align hpos hd
      have := align_eq T k (spec_alignUp p T.align) hk ha (by rw [← ha, h3]; exact hup)
      rw [← ha, h3] at this
      exact this
    rw [e]
    refine ⟨rfl, spec_alignUp_ge p T.align hpos, hd, ?_, ?_, e2⟩
    · intro q hq hdq
      exact spec_alignUp_least p T.align q hpos hq hdq
    · have := spec_alignUp_lt p T.align hpos
      have := spec_alignUp_ge p T.align hpos
      omega
  · have hk64 : 64 ≤ k := Nat.le_of_not_lt hk
    have hle : 2 ^ 64 ≤ T.align := by rw [ha]; exact Nat.pow_le_pow_right (by norm_num) hk64
    have hp0 : p = 0 := by omega
    have ha64 : T.align = 2 ^ 64 := by omega
    have e : align T 0 = 0 := (align_of_eq T (2 ^ 64) 0 ha64).trans std_align_pow64
    have e' : spec_alignUp 0 T.align = 0 := by
      unfold spec_alignUp
      rw [ha64, Nat.zero_add, Nat.div_eq_of_lt (by omega), Nat.zero_mul]
    subst hp0
    refine ⟨e.trans e'.symm, Nat.zero_le _, ?_, ?_, ?_, ?_⟩
    · rw [e]; exact Nat.dvd_zero _
    · intro q _ _; rw [e]; exact Nat.zero_le q
    · rw [e]; omega
    · rw [e]; exact e

/-- C6 at `p = 4115`, `a = 8`. -/
theorem align_smallest_aligned_witness :
    (NonTrivial.align = 2 ^ 3 ∧ 4115 + NonTrivial.align - 1 < 2 ^ 64) ∧
    (align NonTrivial 4115 = spec_alignUp 4115 NonTrivial.align ∧
      4115 ≤ align NonTrivial 4115 ∧ NonTrivial.align ∣ align NonTrivial 4115 ∧
      (∀ q, 4115 ≤ q → NonTrivial.align ∣ q → align NonTrivial 4115 ≤ q) ∧
      align NonTrivial 4115 - 4115 < NonTrivial.align ∧
      align NonTrivial (align NonTrivial 4115) = align NonTrivial 4115) ∧
    align NonTrivial 4115 = 4120 :=
  ⟨⟨rfl, by decide⟩, align_smallest_aligned NonTrivial 3 4115 rfl (by decide), rfl⟩

/-- C7 as stated fails at the start offset `0`: the virtual address
`nullptr + 0` is already aligned, `std::align` returns it, and it is the null
pointer, so `assert(r)` fails and `numRequiredBytes(0)` returns nothing. -/
theorem numRequiredBytes_offset_zero :
    (ArrayBuilder.mk byte 1 0).numRequiredBytes 0 = .error .assert_r ∧
    (ArrayBuilder.mk byte 1 0).numRequiredBytes 0
      ≠ .ok (ArrayBuilder.mk byte 1 0, spec_alignUp 0 byte.align - 0 + 1 * byte.size) := by
  have h : (ArrayBuilder.mk byte 1 0).numRequiredBytes 0 = .error .assert_r := rfl
  refine ⟨h, ?_⟩
  rw [h]
  intro hc
  cases hc

/-- C7, amended. For every `ArrayBuilder<T>` with element count `n` and every
start offset `o > 0`, without overflow (the aligned offset and the result are
representable), `numRequiredBytes(o)` returns
`alignUp(o, alignof(T)) - o + n * sizeof(T)` and leaves the builder unchanged. -/
theorem numRequiredBytes_spec (b : ArrayBuilder) (k o : Nat) (hk : k < 64)
    (ha : b.T.align = 2 ^ k) (ho : 0 < o)
    (h1 : spec_alignUp o b.T.align < 2 ^ 64)
    (h2 : spec_alignUp o b.T.align - o + b.m_size * b.T.size < 2 ^ 64) :
    b.numRequiredBytes o
      = .ok (b, spec_alignUp o b.T.align - o + b.m_size * b.T.size) :=
  numRequiredBytes_eq b k o hk ha ho h1 h2

/-- C7, amended, at `T = NonTrivial`, `n = 3`, `o = 37`: `3 + 24` bytes. -/
theorem numRequiredBytes_spec_witness :
    (3 < 64 ∧ NonTrivial.align = 2 ^ 3 ∧ 0 < 37 ∧
      spec_alignUp 37 NonTrivial.align < 2 ^ 64 ∧
      spec_alignUp 37 NonTrivial.align - 37 + 3 * NonTrivial.size < 2 ^ 64) ∧
    (ArrayBuilder.mk NonTrivial 3 0).numRequiredBytes 37
      = .ok (ArrayBuilder.mk NonTrivial 3 0,
             spec_alignUp 37 NonTrivial.align - 37 + 3 * NonTrivial.size) ∧
    spec_alignUp 37 NonTrivial.align - 37 + 3 * NonTrivial.size = 27 :=
  ⟨⟨by decide, rfl, by decide, by decide, by decide⟩,
    numRequiredBytes_spec (ArrayBuilder.mk NonTrivial 3 0) 3 37 (by decide) rfl (by decide)
      (by decide) (by decide), rfl⟩

/-- C8. Allocation size: for every declaration, without overflow, the plan pass
returns the total obtained by folding over the slots in declaration order,
each array slot adding `requiredBytes(count, sizeof(header) + running total)`
and each value slot nothing; `sizeof(header)` plus that total is the end offset
of the last region when the regions are placed by successive `alignUp` from
offset `sizeof(header)`; every run of `niw` that returns has requested exactly
`sizeof(header) + total` bytes from `::operator new`; and on an aligned block
`niw` does return. -/
theorem niw_allocation_size (hdr base : Nat) (heap : Heap) (decl : List (Slot × Nat))
    (hhdr : 0 < hdr) (hal : alignmentsOk (arraySlots decl))
    (hno : spec_regionsEnd (arraySlots decl) hdr < 2 ^ 64) :
    planPass hdr (decl.map (fun d => PreImplConverter d.1 d.2)) 0
      = .ok (decl.map (fun d => PreImplConverter d.1 d.2),
             spec_totalTrailingBytes hdr (arraySlots decl) 0) ∧
    hdr + spec_totalTrailingBytes hdr (arraySlots decl) 0
      = spec_regionsEnd (arraySlots decl) hdr ∧
    (∀ built, niw hdr heap base decl = .ok (some built) →
      built.requested = hdr + spec_totalTrailingBytes hdr (arraySlots decl) 0 ∧
      built.heap = (base, hdr + spec_totalTrailingBytes hdr (arraySlots decl) 0) :: heap) ∧
    ((∀ x ∈ arraySlots decl, x.1.align ∣ base) →
      base + spec_regionsEnd (arraySlots decl) hdr < 2 ^ 64 →
      ∃ built, niw hdr heap base decl = .ok (some built) ∧
        built.requested = hdr + spec_totalTrailingBytes hdr (arraySlots decl) 0) := by
  have hreg := regions_converter decl
  have htot := spec_total_eq hdr (arraySlots decl) hal 0
  rw [Nat.add_zero] at htot
  have hplan : planPass hdr (decl.map (fun d => PreImplConverter d.1 d.2)) 0
      = .ok (decl.map (fun d => PreImplConverter d.1 d.2),
             spec_totalTrailingBytes hdr (arraySlots decl) 0) := by
    have := planPass_eq hdr (decl.map (fun d => PreImplConverter d.1 d.2)) 0
      (by rw [hreg]; exact hal) (by omega) (by rw [hreg, Nat.add_zero]; exact hno)
    rw [hreg] at this
    exact this
  have hw : wrap (hdr + spec_totalTrailingBytes hdr (arraySlots decl) 0)
      = hdr + spec_totalTrailingBytes hdr (arraySlots decl) 0 := by
    unfold wrap; exact Nat.mod_eq_of_lt (by omega)
  refine ⟨hplan, htot, ?_, ?_⟩
  · intro built hb
    unfold niw at hb
    simp only [hplan, hw, operator_new] at hb
    split at hb
    · cases hb
    · split at hb
      · cases hbm : buildMembers (decl.map (fun d => d.1)) ‹ConstructState›.pi with
        | none => rw [hbm] at hb; cases hb
        | some ms =>
          rw [hbm] at hb
          simp only [Option.map_some', Except.ok.injEq, Option.some.injEq] at hb
          subst hb
          exact ⟨rfl, rfl⟩
      · cases hb
  · intro hbase hno'
    obtain ⟨ms, _, hniw⟩ := niw_ok hdr base heap decl hhdr hal hbase hno'
    exact ⟨_, hniw, rfl⟩

/-- C8 at the scenario of the specification: `32 + 32 = 64` bytes. -/
theorem niw_allocation_size_witness :
    (0 < 32 ∧ alignmentsOk (arraySlots scenario) ∧
      spec_regionsEnd (arraySlots scenario) 32 < 2 ^ 64) ∧
    (planPass 32 (scenario.map (fun d => PreImplConverter d.1 d.2)) 0
      = .ok (scenario.map (fun d => PreImplConverter d.1 d.2),
             spec_totalTrailingBytes 32 (arraySlots scenario) 0) ∧
    32 + spec_totalTrailingBytes 32 (arraySlots scenario) 0
      = spec_regionsEnd (arraySlots scenario) 32 ∧
    (∀ built, niw 32 [] 4096 scenario = .ok (some built) →
      built.requested = 32 + spec_totalTrailingBytes 32 (arraySlots scenario) 0 ∧
      built.heap = (4096, 32 + spec_totalTrailingBytes 32 (arraySlots scenario) 0) :: []) ∧
    ((∀ x ∈ arraySlots scenario, x.1.align ∣ 4096) →
      4096 + spec_regionsEnd (arraySlots scenario) 32 < 2 ^ 64 →
      ∃ built, niw 32 [] 4096 scenario = .ok (some built) ∧
        built.requested = 32 + spec_totalTrailingBytes 32 (arraySlots scenario) 0)) ∧
    32 + spec_totalTrailingBytes 32 (arraySlots scenario) 0 = 64 :=
  ⟨⟨by decide, scenario_alignmentsOk, by decide⟩,
    niw_allocation_size 32 4096 [] scenario (by decide) scenario_alignmentsOk (by decide),
    rfl⟩

/-- C9. Postcondition of `consume`: for every element count `n`, non-null
cursor `c` and capacity `s` with the buffer `[c, c + s)` inside the address
space and `alignUp(c, alignof(T)) - c + n * sizeof(T) <= s`, `consume(c, s)`
passes its assertion; afterwards `begin()` is `alignUp(c, alignof(T))`, `end()`
is `begin()` plus `n` elements, the cursor is `alignUp(c, alignof(T)) +
n * sizeof(T)`, the capacity is `s - (alignUp(c, alignof(T)) - c) -
n * sizeof(T)`, and placement `new` ran on exactly the `n` element positions
`begin() + i * sizeof(T)`, `i < n`. -/
theorem consume_postcondition (b : ArrayBuilder) (k c s : Nat) (hk : k < 64)
    (ha : b.T.align = 2 ^ k) (hsz : 0 < b.T.size) (hc : 0 < c) (hbuf : c + s < 2 ^ 64)
    (hcap : spec_alignUp c b.T.align - c + b.m_size * b.T.size ≤ s) :
    ∃ r, b.consume c s = .ok r ∧
      r.builder.T = b.T ∧ r.builder.m_size = b.m_size ∧
      r.builder.begin = spec_alignUp c b.T.align ∧
      r.builder.end_ = r.builder.begin + b.m_size * b.T.size ∧
      r.buf = spec_alignUp c b.T.align + b.m_size * b.T.size ∧
      r.space = s - (spec_alignUp c b.T.align - c) - b.m_size * b.T.size ∧
      r.constructed
        = some ((List.range b.m_size).map (fun i => r.builder.begin + i * b.T.size)) := by
  have hapos : 0 < b.T.align := by rw [ha]; exact Nat.pow_pos (by norm_num)
  have hge := spec_alignUp_ge c b.T.align hapos
  have hend : spec_alignUp c b.T.align + b.m_size * b.T.size < 2 ^ 64 := by omega
  have h := consume_eq b k c s hk ha hc (by omega) hend hcap
  refine ⟨_, h, rfl, rfl, rfl, ?_, rfl, rfl, ?_⟩
  · show wrap (spec_alignUp c b.T.align + b.m_size * b.T.size)
      = spec_alignUp c b.T.align + b.m_size * b.T.size
    unfold wrap; exact Nat.mod_eq_of_lt hend
  · exact ptrRange_eq b.T.size (spec_alignUp c b.T.align) b.m_size hsz

/-- C9 at `T = NonTrivial`, `n = 2`, cursor `4099`, capacity `100`. -/
theorem consume_postcondition_witness :
    (3 < 64 ∧ NonTrivial.align = 2 ^ 3 ∧ 0 < NonTrivial.size ∧ 0 < 4099 ∧
      4099 + 100 < 2 ^ 64 ∧
      spec_alignUp 4099 NonTrivial.align - 4099 + 2 * NonTrivial.size ≤ 100) ∧
    (∃ r, (ArrayBuilder.mk NonTrivial 2 0).consume 4099 100 = .ok r ∧
      r.builder.T = NonTrivial ∧ r.builder.m_size = 2 ∧
      r.builder.begin = spec_alignUp 4099 NonTrivial.align ∧
      r.builder.end_ = r.builder.begin + 2 * NonTrivial.size ∧
      r.buf = spec_alignUp 4099 NonTrivial.align + 2 * NonTrivial.size ∧
      r.space = 100 - (spec_alignUp 4099 NonTrivial.align - 4099) - 2 * NonTrivial.size ∧
      r.constructed
        = some ((List.range 2).map (fun i => r.builder.begin + i * NonTrivial.size))) ∧
    (ArrayBuilder.mk NonTrivial 2 0).consume 4099 100
      = .ok ⟨⟨NonTrivial, 2, 4104⟩, 4120, 79, some [4104, 4112]⟩ :=
  ⟨⟨by decide, rfl, by decide, by decide, by decide, by decide⟩,
    consume_postcondition (ArrayBuilder.mk NonTrivial 2 0) 3 4099 100 (by decide) rfl
      (by decide) (by decide) (by decide) (by decide), rfl⟩

/-- C10. The assertion of `consume` fails if and only if the capacity is
insufficient: for every element count `n` with `n * sizeof(T)` representable,
non-null cursor `c` with `alignUp(c, alignof(T))` representable and capacity
`s`, `assert(m_ptr)` fails exactly when `alignUp(c, alignof(T)) - c +
n * sizeof(T) > s`, and then the cursor and the capacity still have the values
`c` and `s`. -/
theorem consume_fails_iff (b : ArrayBuilder) (k c s : Nat) (hk : k < 64)
    (ha : b.T.align = 2 ^ k) (hc : 0 < c)
    (hup : spec_alignUp c b.T.align < 2 ^ 64) (hn : b.m_size * b.T.size < 2 ^ 64) :
    ((∃ buf space, b.consume c s = .error (.assert_m_ptr buf space)) ↔
      spec_alignUp c b.T.align - c + b.m_size * b.T.size > s) ∧
    (∀ buf space, b.consume c s = .error (.assert_m_ptr buf space) → buf = c ∧ space = s) := by
  by_cases hcap : s < spec_alignUp c b.T.align - c + b.m_size * b.T.size
  · have h := consume_fail b k c s hk ha hup hn hcap
    refine ⟨⟨fun _ => hcap, fun _ => ⟨c, s, h⟩⟩, ?_⟩
    intro buf space h'
    rw [h] at h'
    simp only [Except.error.injEq, Failure.assert_m_ptr.injEq] at h'
    exact ⟨h'.1.symm, h'.2.symm⟩
  · obtain ⟨r, hr⟩ := consume_ok_of_capacity b k c s hk ha hc hup hn (by omega)
    refine ⟨⟨?_, fun h => absurd h hcap⟩, ?_⟩
    · rintro ⟨buf, space, h'⟩
      rw [hr] at h'
      cases h'
    · intro buf space h'
      rw [hr] at h'
      cases h'

/-- C10 at `T = NonTrivial`, `n = 2`, cursor `4099`, capacity `20`: `5 + 16`
bytes are needed, the assertion fails with cursor and capacity untouched. -/
theorem consume_fails_iff_witness :
    (3 < 64 ∧ NonTrivial.align = 2 ^ 3 ∧ 0 < 4099 ∧
      spec_alignUp 4099 NonTrivial.align < 2 ^ 64 ∧ 2 * NonTrivial.size < 2 ^ 64) ∧
    (((∃ buf space, (ArrayBuilder.mk NonTrivial 2 0).consume 4099 20
          = .error (.assert_m_ptr buf space)) ↔
        spec_alignUp 4099 NonTrivial.align - 4099 + 2 * NonTrivial.size > 20) ∧
      (∀ buf space, (ArrayBuilder.mk NonTrivial 2 0).consume 4099 20
          = .error (.assert_m_ptr buf space) → buf = 4099 ∧ space = 20)) ∧
    (ArrayBuilder.mk NonTrivial 2 0).consume 4099 20 = .error (.assert_m_ptr 4099 20) :=
  ⟨⟨by decide, rfl, by decide, by decide, by decide⟩,
    consume_fails_iff (ArrayBuilder.mk NonTrivial 2 0) 3 4099 20 (by decide) rfl (by decide)
      (by decide) (by decide), rfl⟩

/-! ### Accessors, regions and boundary cases -/

/-- The body shared by the two adjacent classes, without an anchor. -/
theorem adjacent_begin_no_anchor (this : Instance) (T : Ty) (k : Nat) (hk : k < 64)
    (ha : T.align = 2 ^ k) (end_ : Nat → Option Nat)
    (hup : spec_alignUp (this.addr + this.sizeofFLB) T.align < 2 ^ 64) :
    adjacent_begin this T (-1) end_
      = some (spec_alignUp (this.addr + this.sizeofFLB) T.align) := by
  have hapos : 0 < T.align := by rw [ha]; exact Nat.pow_pos (by norm_num)
  have hge := spec_alignUp_ge (this.addr + this.sizeofFLB) T.align hapos
  have hw : wrap (this.addr + 1 * this.sizeofFLB) = this.addr + this.sizeofFLB := by
    unfold wrap; rw [Nat.one_mul]; exact Nat.mod_eq_of_lt (by omega)
  have hal := align_eq T k (this.addr + this.sizeofFLB) hk ha (by rw [← ha]; exact hup)
  unfold adjacent_begin
  simp only [if_true, aligner, aligner_impl.advance, aligner_impl.get, aligner_impl.cast, hw,
    hal, ha]

/-- Every placed region lies between the cursor and the end of the last
region, at a multiple of its element alignment. -/
theorem placed_bounds (pi : List PreImpl) (h : alignmentsOk (regions pi)) (c i : Nat)
    (b : ArrayBuilder) (hb : (builders (placed pi c))[i]? = some b) :
    c ≤ b.begin ∧ b.begin + b.m_size * b.T.size ≤ spec_regionsEnd (regions pi) c ∧
      b.T.align ∣ b.begin := by
  induction pi generalizing c i with
  | nil => simp [placed, builders] at hb
  | cons u pi ih =>
    cases u with
    | value T v => exact ih h c i hb
    | builder b0 =>
      have h' : alignmentsOk ((b0.T, b0.m_size) :: regions pi) := h
      obtain ⟨k, hk, hka⟩ := alignmentsOk_head _ _ h'
      have hka' : b0.T.align = 2 ^ k := hka
      have hapos : 0 < b0.T.align := by rw [hka']; exact Nat.pow_pos (by norm_num)
      have h1 := spec_alignUp_ge c b0.T.align hapos
      have h2 := spec_regionsEnd_ge (regions pi) (alignmentsOk_tail _ _ h')
        (spec_alignUp c b0.T.align + b0.m_size * b0.T.size)
      have hend : spec_regionsEnd (regions (PreImpl.builder b0 :: pi)) c
          = spec_regionsEnd (regions pi)
              (spec_alignUp c b0.T.align + b0.m_size * b0.T.size) := rfl
      simp only [placed, builders] at hb
      cases i with
      | zero =>
        simp only [List.getElem?_cons_zero, Option.some.injEq] at hb
        subst hb
        refine ⟨h1, ?_, spec_alignUp_dvd c b0.T.align⟩
        rw [hend]
        exact h2
      | succ j =>
        simp only [List.getElem?_cons_succ] at hb
        obtain ⟨g1, g2, g3⟩ := ih (alignmentsOk_tail _ _ h') _ j hb
        rw [hend]
        exact ⟨by omega, g2, g3⟩

/-- An earlier placed region ends before a later one begins. -/
theorem placed_ordered (pi : List PreImpl) (h : alignmentsOk (regions pi)) (c i j : Nat)
    (b b' : ArrayBuilder) (hij : i < j) (hb : (builders (placed pi c))[i]? = some b)
    (hb' : (builders (placed pi c))[j]? = some b') :
    b.begin + b.m_size * b.T.size ≤ b'.begin := by
  induction pi generalizing c i j with
  | nil => simp [placed, builders] at hb
  | cons u pi ih =>
    cases u with
    | value T v => exact ih h c i j hij hb hb'
    | builder b0 =>
      have h' : alignmentsOk ((b0.T, b0.m_size) :: regions pi) := h
      simp only [placed, builders] at hb hb'
      cases j with
      | zero => omega
      | succ j' =>
        simp only [List.getElem?_cons_succ] at hb'
        cases i with
        | zero =>
          simp only [List.getElem?_cons_zero, Option.some.injEq] at hb
          subst hb
          exact (placed_bounds pi (alignmentsOk_tail _ _ h') _ j' b' hb').1
        | succ i' =>
          simp only [List.getElem?_cons_succ] at hb
          exact ih (alignmentsOk_tail _ _ h') _ i' j' (by omega) hb hb'

/-- The accessor `begin<e>()` on an adjacent member without anchor. -/
theorem begin_no_anchor_aux (this : Instance) (e : Nat) (T : Ty) (k : Nat) (m : Member)
    (hk : k < 64) (ha : T.align = 2 ^ k) (hm : this.members[e]? = some m)
    (hkind : m = .adjacentArray T (-1) ∨ ∃ m_end, m = .sizedAdjacentArray T (-1) m_end)
    (hup : spec_alignUp (this.addr + this.sizeofFLB) T.align < 2 ^ 64) :
    this.begin e = some (spec_alignUp (this.addr + this.sizeofFLB) T.align) := by
  unfold Instance.begin
  rw [hm]
  rcases hkind with rfl | ⟨m_end, rfl⟩
  · exact adjacent_begin_no_anchor this T k hk ha _ hup
  · exact adjacent_begin_no_anchor this T k hk ha _ hup

/-! ### What a returning run has done -/

/-- A returning plan pass hands back the tuple it was given. -/
theorem planPass_pi (hdr : Nat) (pi pi1 : List PreImpl) (n t : Nat)
    (h : planPass hdr pi n = .ok (pi1, t)) : pi1 = pi := by
  induction pi generalizing pi1 n t with
  | nil =>
    simp only [planPass, Except.ok.injEq, Prod.mk.injEq] at h
    exact h.1.symm
  | cons u pi ih =>
    cases u with
    | value T v =>
      simp only [planPass] at h
      split at h
      · cases h
      · rename_i rest1 n1 hrest
        simp only [Except.ok.injEq, Prod.mk.injEq] at h
        rw [← h.1, ih rest1 n n1 hrest]
    | builder b =>
      simp only [planPass] at h
      split at h
      · cases h
      · rename_i u1 r hreq
        split at h
        · cases h
        · rename_i rest1 n1 hrest
          simp only [Except.ok.injEq, Prod.mk.injEq] at h
          have hu : u1 = b := by
            unfold ArrayBuilder.numRequiredBytes at hreq
            simp only at hreq
            split at hreq
            · cases hreq
            · simp only [Except.ok.injEq, Prod.mk.injEq] at hreq
              exact hreq.1.symm
          rw [← h.1, ih rest1 _ n1 hrest, hu]

/-- What a returning `niw` has done. -/
theorem niw_inv (hdr base : Nat) (heap : Heap) (decl : List (Slot × Nat)) (built : Built)
    (h : niw hdr heap base decl = .ok (some built)) :
    ∃ total st ms,
      planPass hdr (decl.map (fun d => PreImplConverter d.1 d.2)) 0
        = .ok (decl.map (fun d => PreImplConverter d.1 d.2), total) ∧
      constructPass (decl.map (fun d => PreImplConverter d.1 d.2)) (wrap (base + hdr)) total
        = .ok st ∧
      st.numBytesForArrays = 0 ∧
      buildMembers (decl.map (fun d => d.1)) st.pi = some ms ∧
      built = ⟨⟨base, hdr, ms⟩, wrap (hdr + total), st.constructed,
               (base, wrap (hdr + total)) :: heap⟩ := by
  unfold niw at h
  simp only at h
  split at h
  · cases h
  · rename_i pi1 total hplan
    have hpi := planPass_pi hdr _ pi1 0 total hplan
    subst hpi
    split at h
    · cases h
    · rename_i st hcons
      split at h
      · rename_i hzero
        cases hbm : buildMembers (decl.map (fun d => d.1)) st.pi with
        | none => rw [hbm] at h; cases h
        | some ms =>
          rw [hbm] at h
          simp only [Option.map_some', Except.ok.injEq, Option.some.injEq] at h
          exact ⟨total, st, ms, hplan, hcons, hzero, hbm, h.symm⟩
      · cases h

/-- The placeholder built for an array slot. -/
theorem converter_of_elem (s : Slot) (T : Ty) (n : Nat) (hs : s.elem = some T) :
    PreImplConverter s n = .builder ⟨T, n, 0⟩ := by
  cases s <;> simp only [Slot.elem, Option.some.injEq] at hs <;>
    first
    | (subst hs; rfl)
    | cases hs

/-- What a returning `consume` has done, when the end of the region is
representable. -/
theorem consume_ok_inv (b : ArrayBuilder) (k c s : Nat) (r : Consumed) (hk : k < 64)
    (ha : b.T.align = 2 ^ k)
    (hrep : spec_alignUp c b.T.align + b.m_size * b.T.size < 2 ^ 64)
    (h : b.consume c s = .ok r) :
    r.builder = { b with m_ptr := spec_alignUp c b.T.align } ∧
    r.constructed = ptrRange b.T.size (spec_alignUp c b.T.align)
      (spec_alignUp c b.T.align + b.m_size * b.T.size) := by
  rw [ha] at hrep
  have hB : b.numBytes = b.m_size * b.T.size := numBytes_eq b (by omega)
  have hB' : ∀ p, ArrayBuilder.numBytes { T := b.T, m_size := b.m_size, m_ptr := p }
      = b.m_size * b.T.size := fun p => hB
  have e2 : wrap (spec_alignUp c (2 ^ k) + b.m_size * b.T.size)
      = spec_alignUp c (2 ^ k) + b.m_size * b.T.size := by
    unfold wrap; exact Nat.mod_eq_of_lt hrep
  unfold ArrayBuilder.consume at h
  simp only [ha, hB, std_align_eq k _ c s hk (by omega)] at h
  by_cases hcond : s < b.m_size * b.T.size ∨
      spec_alignUp c (2 ^ k) - c > s - b.m_size * b.T.size
  · simp only [if_pos hcond, if_true] at h
    cases h
  · simp only [if_neg hcond] at h
    split at h
    · cases h
    · simp only [Except.ok.injEq] at h
      subst h
      simp only [ha, ArrayBuilder.begin, ArrayBuilder.end_, e2, and_self]

/-- The construct pass on a declaration whose first array slot follows value
slots only: that slot's placeholder is consumed at the start cursor. -/
theorem constructPass_first (vals : List (Ty × Nat)) (s : Slot) (T : Ty) (n : Nat)
    (hs : s.elem = some T) (rest : List (Slot × Nat)) (c sp : Nat) (st : ConstructState)
    (h : constructPass ((vals.map (fun x => (Slot.value x.1, x.2)) ++ (s, n) :: rest).map
      (fun d => PreImplConverter d.1 d.2)) c sp = .ok st) :
    ∃ r pi', (ArrayBuilder.mk T n 0).consume c sp = .ok r ∧
      st.pi = vals.map (fun x => PreImpl.value x.1 x.2) ++ .builder r.builder :: pi' ∧
      st.constructed.head? = some r.constructed := by
  induction vals generalizing st with
  | nil =>
    simp only [List.map_nil, List.nil_append, List.map_cons, converter_of_elem s T n hs,
      constructPass] at h
    split at h
    · cases h
    · rename_i r hr
      split at h
      · cases h
      · rename_i st' _
        simp only [Except.ok.injEq] at h
        subst h
        exact ⟨r, st'.pi, hr, rfl, rfl⟩
  | cons x vals ih =>
    simp only [List.map_cons, List.cons_append, PreImplConverter, constructPass] at h
    split at h
    · cases h
    · rename_i st' hst'
      simp only [Except.ok.injEq] at h
      subst h
      obtain ⟨r, pi', hr, hpi, hc⟩ := ih st' hst'
      exact ⟨r, pi', hr, by simp only [List.map_cons, List.cons_append, hpi], hc⟩

/-- The header member built for the first array slot after value slots. -/
theorem buildMembers_first (vals : List (Ty × Nat)) (s : Slot) (n : Nat)
    (rest : List (Slot × Nat)) (u : PreImpl) (pi' : List PreImpl) (ms : List Member)
    (h : buildMembers ((vals.map (fun x => (Slot.value x.1, x.2)) ++ (s, n) :: rest).map
        (fun d => d.1))
      (vals.map (fun x => PreImpl.value x.1 x.2) ++ u :: pi') = some ms) :
    ∃ m, Member.ofPreImpl (TransformUnboundedArrays s) u = some m ∧
      ms[vals.length]? = some m := by
  induction vals generalizing ms with
  | nil =>
    simp only [List.map_nil, List.nil_append, List.map_cons, buildMembers] at h
    split at h
    · rename_i m ms' hm _
      simp only [Option.some.injEq] at h
      subst h
      exact ⟨m, hm, List.getElem?_cons_zero⟩
    · cases h
  | cons x vals ih =>
    simp only [List.map_cons, List.cons_append, buildMembers] at h
    split at h
    · rename_i m ms' _ hms'
      simp only [Option.some.injEq] at h
      subst h
      obtain ⟨m', hm', hidx⟩ := ih ms' hms'
      exact ⟨m', hm', by simpa only [List.length_cons, List.getElem?_cons_succ] using hidx⟩
    · cases h

/-- C11. For every instance at address `p` and every adjacent slot declared
without an anchor (`AdjacentArray<T>` or `SizedAdjacentArray<T>`, `El = -1`),
whatever the other members and whatever end pointer the slot stores,
`begin<e>()` is `alignUp(p + sizeof(header), alignof(T))`: it depends on the
instance's address only. -/
theorem begin_without_anchor (this : Instance) (e : Nat) (T : Ty) (k : Nat) (m : Member)
    (hk : k < 64) (ha : T.align = 2 ^ k) (hm : this.members[e]? = some m)
    (hkind : m = .adjacentArray T (-1) ∨ ∃ m_end, m = .sizedAdjacentArray T (-1) m_end)
    (hup : spec_alignUp (this.addr + this.sizeofFLB) T.align < 2 ^ 64) :
    this.begin e = some (spec_alignUp (this.addr + this.sizeofFLB) T.align) := by
  exact begin_no_anchor_aux this e T k m hk ha hm hkind hup

/-- C11 at a `SizedAdjacentArray<NonTrivial>` in a 20-byte header at `4096`:
`begin<1>()` is `alignUp(4116, 8) = 4120`, not read from the stored `4136`. -/
theorem begin_without_anchor_witness :
    (3 < 64 ∧ NonTrivial.align = 2 ^ 3 ∧
      (Instance.mk 4096 20 [.value int32 7, .sizedAdjacentArray NonTrivial (-1) 4136]).members[1]?
        = some (.sizedAdjacentArray NonTrivial (-1) 4136) ∧
      spec_alignUp (4096 + 20) NonTrivial.align < 2 ^ 64) ∧
    (Instance.mk 4096 20 [.value int32 7, .sizedAdjacentArray NonTrivial (-1) 4136]).begin 1
      = some (spec_alignUp (4096 + 20) NonTrivial.align) ∧
    spec_alignUp (4096 + 20) NonTrivial.align = 4120 :=
  ⟨⟨by decide, rfl, rfl, by decide⟩,
    begin_without_anchor
      (Instance.mk 4096 20 [.value int32 7, .sizedAdjacentArray NonTrivial (-1) 4136]) 1
      NonTrivial 3 (.sizedAdjacentArray NonTrivial (-1) 4136) (by decide) rfl rfl
      (Or.inr ⟨4136, rfl⟩) (by decide), rfl⟩

/-- C12. Zero-count boundary: for an array slot with count `0` at the non-zero
running offset `c`, followed by another array slot, `numRequiredBytes(c)` is
the padding `alignUp(c, alignof(T)) - c` alone; in the construct pass the
placeholder gets `begin() == end() == alignUp(c, alignof(T))`, so a `SizedArray`
built from it stores `m_begin == m_end`; the padding is taken from the
capacity; and the following slot's region starts at
`alignUp(alignUp(c, alignof(T)), alignof(Tnext))`. -/
theorem zero_count_boundary (b b' : ArrayBuilder) (k k' c s : Nat) (hk : k < 64)
    (hk' : k' < 64) (ha : b.T.align = 2 ^ k) (ha' : b'.T.align = 2 ^ k')
    (hz : b.m_size = 0) (hc : 0 < c) (hs : s < 2 ^ 64)
    (hend : spec_alignUp (spec_alignUp c b.T.align) b'.T.align + b'.m_size * b'.T.size
      < 2 ^ 64)
    (hcap : spec_alignUp (spec_alignUp c b.T.align) b'.T.align + b'.m_size * b'.T.size - c
      ≤ s) :
    b.numRequiredBytes c = .ok (b, spec_alignUp c b.T.align - c) ∧
    ∃ st b0 b1, constructPass [.builder b, .builder b'] c s = .ok st ∧
      st.pi = [.builder b0, .builder b1] ∧
      b0.begin = spec_alignUp c b.T.align ∧ b0.end_ = b0.begin ∧
      Member.ofPreImpl (.sizedArray b.T) (.builder b0)
        = some (.sizedArray b.T (spec_alignUp c b.T.align) (spec_alignUp c b.T.align)) ∧
      b1.begin = spec_alignUp (spec_alignUp c b.T.align) b'.T.align ∧
      st.numBytesForArrays = s - (spec_alignUp c b.T.align - c)
        - (spec_alignUp (spec_alignUp c b.T.align) b'.T.align - spec_alignUp c b.T.align)
        - b'.m_size * b'.T.size := by
  obtain ⟨T, n, p⟩ := b
  simp only at hz ha hend hcap ⊢
  subst hz
  have hapos : 0 < T.align := by rw [ha]; exact Nat.pow_pos (by norm_num)
  have hapos' : 0 < b'.T.align := by rw [ha']; exact Nat.pow_pos (by norm_num)
  have hge := spec_alignUp_ge c T.align hapos
  have hge' := spec_alignUp_ge (spec_alignUp c T.align) b'.T.align hapos'
  have hal : alignmentsOk (regions [.builder ⟨T, 0, p⟩, .builder b']) := by
    intro x hx
    simp only [regions, builders, List.map_cons, List.map_nil, List.mem_cons,
      List.mem_singleton, List.not_mem_nil, or_false] at hx
    rcases hx with rfl | rfl
    · exact ⟨k, hk, ha⟩
    · exact ⟨k', hk', ha'⟩
  have hre : spec_regionsEnd (regions [.builder ⟨T, 0, p⟩, .builder b']) c
      = spec_alignUp (spec_alignUp c T.align) b'.T.align + b'.m_size * b'.T.size := by
    simp only [regions, builders, List.map_cons, List.map_nil, spec_regionsEnd, Nat.zero_mul,
      Nat.add_zero]
  have hpl : placed [.builder ⟨T, 0, p⟩, .builder b'] c
      = [.builder ⟨T, 0, spec_alignUp c T.align⟩,
         .builder ⟨b'.T, b'.m_size, spec_alignUp (spec_alignUp c T.align) b'.T.align⟩] := by
    simp only [placed, Nat.zero_mul, Nat.add_zero]
  constructor
  · have h := numRequiredBytes_eq ⟨T, 0, p⟩ k c hk ha hc (by simp only; omega)
      (by simp only; omega)
    simp only [spec_requiredBytes, Nat.zero_mul, Nat.add_zero] at h
    exact h
  · have h := constructPass_eq [.builder ⟨T, 0, p⟩, .builder b'] c s hal hc hs
      (by rw [hre]; exact hend) (by rw [hre]; exact hcap)
    rw [hre, hpl] at h
    refine ⟨_, _, _, h, rfl, rfl, ?_, ?_, rfl, ?_⟩
    · show wrap (spec_alignUp c T.align + 0 * T.size) = spec_alignUp c T.align
      unfold wrap
      rw [Nat.zero_mul, Nat.add_zero]
      exact Nat.mod_eq_of_lt (by omega)
    · show some (Member.sizedArray T (spec_alignUp c T.align)
          (wrap (spec_alignUp c T.align + 0 * T.size))) = _
      unfold wrap
      rw [Nat.zero_mul, Nat.add_zero, Nat.mod_eq_of_lt (by omega)]
    · show s - (spec_alignUp (spec_alignUp c T.align) b'.T.align + b'.m_size * b'.T.size - c)
        = _
      omega

/-- C12 at an empty `byte` array at offset `4131` followed by two
`NonTrivial`: begin and end `4131`, next region at `alignUp(4131, 8) = 4136`. -/
theorem zero_count_boundary_witness :
    (0 < 64 ∧ 3 < 64 ∧ byte.align = 2 ^ 0 ∧ NonTrivial.align = 2 ^ 3 ∧
      (ArrayBuilder.mk byte 0 0).m_size = 0 ∧ 0 < 4131 ∧ 21 < 2 ^ 64 ∧
      spec_alignUp (spec_alignUp 4131 byte.align) NonTrivial.align + 2 * NonTrivial.size
        < 2 ^ 64 ∧
      spec_alignUp (spec_alignUp 4131 byte.align) NonTrivial.align + 2 * NonTrivial.size - 4131
        ≤ 21) ∧
    ((ArrayBuilder.mk byte 0 0).numRequiredBytes 4131
        = .ok (ArrayBuilder.mk byte 0 0, spec_alignUp 4131 byte.align - 4131) ∧
      ∃ st b0 b1, constructPass [.builder (ArrayBuilder.mk byte 0 0),
          .builder (ArrayBuilder.mk NonTrivial 2 0)] 4131 21 = .ok st ∧
        st.pi = [.builder b0, .builder b1] ∧
        b0.begin = spec_alignUp 4131 byte.align ∧ b0.end_ = b0.begin ∧
        Member.ofPreImpl (.sizedArray byte) (.builder b0)
          = some (.sizedArray byte (spec_alignUp 4131 byte.align)
              (spec_alignUp 4131 byte.align)) ∧
        b1.begin = spec_alignUp (spec_alignUp 4131 byte.align) NonTrivial.align ∧
        st.numBytesForArrays = 21 - (spec_alignUp 4131 byte.align - 4131)
          - (spec_alignUp (spec_alignUp 4131 byte.align) NonTrivial.align
              - spec_alignUp 4131 byte.align)
          - 2 * NonTrivial.size) ∧
    spec_alignUp (spec_alignUp 4131 byte.align) NonTrivial.align = 4136 :=
  ⟨⟨by decide, by decide, rfl, rfl, rfl, by decide, by decide, by decide, by decide⟩,
    zero_count_boundary (ArrayBuilder.mk byte 0 0) (ArrayBuilder.mk NonTrivial 2 0) 0 3 4131 21
      (by decide) (by decide) rfl rfl rfl (by decide) (by decide) (by decide) (by decide),
    rfl⟩

/-- C13. Automatic storage-kind selection: a slot declared `T[]` becomes
`UnsizedArray<T>` (kind `unsized`, one pointer) exactly when `T` is trivially
destructible and `SizedArray<T>` (kind `sized`, two pointers) otherwise; every
other slot type is left unchanged; the descriptor of a trivially destructible
`T[]` has one pointer less than the `SizedArray` descriptor, and `deleet` calls
`std::destroy` for no such member. -/
theorem storage_kind_selection (T : Ty) :
    (TransformUnboundedArrays (.unbounded T) = .unsizedArray T ↔ T.trivial = true) ∧
    (TransformUnboundedArrays (.unbounded T) = .sizedArray T ↔ T.trivial = false) ∧
    (∀ s : Slot, (∀ U, s ≠ .unbounded U) → TransformUnboundedArrays s = s) ∧
    fc_array_kind (.unsizedArray T) = some .unsized ∧
    fc_array_kind (.sizedArray T) = some .sized ∧
    pointerMembers (.unsizedArray T) = 1 ∧ pointerMembers (.sizedArray T) = 2 ∧
    (T.trivial = true →
      pointerMembers (TransformUnboundedArrays (.unbounded T)) + 1
        = pointerMembers (.sizedArray T) ∧
      ∀ (p : Instance) (m_begin : Nat), destroyMember p (.unsizedArray T m_begin) = none) := by
  refine ⟨?_, ?_, ?_, rfl, rfl, rfl, rfl, ?_⟩
  · cases ht : T.trivial <;> simp [TransformUnboundedArrays, ht]
  · cases ht : T.trivial <;> simp [TransformUnboundedArrays, ht]
  · intro s hs
    cases s with
    | unbounded U => exact absurd rfl (hs U)
    | value U => rfl
    | unsizedArray U => rfl
    | sizedArray U => rfl
    | adjacentArray U El => rfl
    | sizedAdjacentArray U El => rfl
  · intro ht
    refine ⟨by simp [TransformUnboundedArrays, ht, pointerMembers], ?_⟩
    intro p m_begin
    simp [destroyMember, Member.type, ht]

/-- The outstanding blocks after giving back a block that was not outstanding
before it was handed out. -/
theorem operator_delete_new (heap : Heap) (addr size : Nat)
    (hfresh : ∀ blk ∈ heap, blk.1 ≠ addr) :
    operator_delete (operator_new heap addr size) addr = heap := by
  unfold operator_delete operator_new
  rw [List.filter_cons]
  simp only [bne_self_eq_false, Bool.false_eq_true, if_false]
  rw [List.filter_eq_self]
  intro blk hblk
  simpa using hfresh blk hblk

/-- A run of `deleet` that returns has destroyed the header and given the
instance's block back: after `niw` and `deleet` the outstanding blocks are those
from before `niw`, the allocator having handed out an address that was not
outstanding. -/
theorem deleet_returning_round_trip (hdr base : Nat) (heap : Heap)
    (decl : List (Slot × Nat)) (built : Built) (t : Teardown)
    (hfresh : ∀ blk ∈ heap, blk.1 ≠ base)
    (hb : niw hdr heap base decl = .ok (some built))
    (ht : deleet built.heap (some built.instance_) = some t) :
    built.instance_.addr = base ∧ built.heap = operator_new heap base built.requested ∧
    t.headerDestroyed = true ∧ t.heap = heap := by
  obtain ⟨total, st, ms, _, _, _, _, hbuilt⟩ := niw_inv hdr base heap decl built hb
  subst hbuilt
  unfold deleet at ht
  simp only at ht
  split at ht
  · simp only [Option.some.injEq] at ht
    subst ht
    exact ⟨rfl, rfl, rfl, operator_delete_new heap base _ hfresh⟩
  · cases ht

/-- C14 (code at the failing input). For `FlexibleLayoutClass<byte[],
SizedAdjacentArray<NonTrivial16, 0>>` built with `(3, 2)`, 16-byte header:
`niw` performs one allocation, of `16 + 40 = 56` bytes, returns the block's
address `4096` and constructs the two 16-byte elements at `4120` and `4136`,
storing `m_end = 4152`. In `deleet`, `begin(p)` is `4112` because `end<0>()`
returns the anchor's begin, and `std::destroy` from `4112` in steps of 16 never
meets `4152`: `deleet` does not return, `::operator delete` is not reached and
the block stays outstanding. -/
theorem deleet_never_frees :
    ∃ built, niw 16 [] 4096 anchored16 = .ok (some built) ∧
      built.instance_ = ⟨4096, 16,
        [.unsizedArray byte 4112, .sizedAdjacentArray NonTrivial16 0 4152]⟩ ∧
      built.requested = 56 ∧ built.heap = [(4096, 56)] ∧
      built.constructed = [some [4112, 4113, 4114], some [4120, 4136]] ∧
      (Member.sizedAdjacentArray NonTrivial16 0 4152).begin built.instance_
        built.instance_.end_ = some 4112 ∧
      ptrRange NonTrivial16.size 4112 4152 = none ∧
      destroyMember built.instance_ (.sizedAdjacentArray NonTrivial16 0 4152) = some none ∧
      deleet built.heap (some built.instance_) = none :=
  ⟨_, rfl, rfl, rfl, rfl, rfl, rfl, rfl, rfl, rfl⟩

/-- C15. The call `deleet(nullptr)` is a no-op: no element is destroyed, the
header destructor does not run, and the allocator is left as it was. -/
theorem deleet_null (heap : Heap) :
    deleet heap none = some ⟨[], false, heap⟩ ∧
    (deleet heap none).map (fun t => t.destroyed) = some [] ∧
    (deleet heap none).map (fun t => t.headerDestroyed) = some false ∧
    (deleet heap none).map (fun t => t.heap) = some heap :=
  ⟨rfl, rfl, rfl, rfl⟩

/-- The running maximum is at least its start, at least every element it
folds over, and is the start or one of the elements. -/
theorem foldl_max_spec (f : Slot → Nat) (l : List Slot) (a : Nat) :
    a ≤ l.foldl (fun m t => max m (f t)) a ∧
    (∀ t ∈ l, f t ≤ l.foldl (fun m t => max m (f t)) a) ∧
    (l.foldl (fun m t => max m (f t)) a = a ∨
      ∃ t ∈ l, f t = l.foldl (fun m t => max m (f t)) a) := by
  induction l generalizing a with
  | nil => exact ⟨Nat.le_refl _, fun t ht => absurd ht (List.not_mem_nil t), Or.inl rfl⟩
  | cons x l ih =>
    obtain ⟨h1, h2, h3⟩ := ih (max a (f x))
    simp only [List.foldl_cons]
    refine ⟨le_trans (le_max_left _ _) h1, ?_, ?_⟩
    · intro t ht
      rcases List.mem_cons.mp ht with rfl | ht'
      · exact le_trans (le_max_right _ _) h1
      · exact h2 t ht'
    · rcases h3 with h3 | ⟨t, ht, h3⟩
      · rcases max_cases a (f x) with ⟨hm, _⟩ | ⟨hm, _⟩
        · left; rw [h3, hm]
        · right; exact ⟨x, List.mem_cons_self _ _, by rw [h3, hm]⟩
      · right; exact ⟨t, List.mem_cons_of_mem _ ht, h3⟩

/-- C16. Header alignment: for every non-empty slot list,
`CollectAlignment<T...>::value` is the maximum of the slots' alignment
requirements (at least each of them, and equal to one of them), where a value
slot `T` requires `alignof(T)` and every array slot the alignment of its
element type; when all requirements are powers of two it is a multiple of
each of them. -/
theorem collectAlignment_is_max (s : Slot) (rest : List Slot) :
    ∃ m, CollectAlignment (s :: rest) = some m ∧
      (∀ t ∈ s :: rest, GetAlignmentRequirement t ≤ m) ∧
      (∃ t ∈ s :: rest, GetAlignmentRequirement t = m) ∧
      (∀ T, GetAlignmentRequirement (.value T) = T.align) ∧
      (∀ t T, t.elem = some T → GetAlignmentRequirement t = T.align) ∧
      ((∀ t ∈ s :: rest, ∃ k, GetAlignmentRequirement t = 2 ^ k) →
        ∀ t ∈ s :: rest, GetAlignmentRequirement t ∣ m) := by
  obtain ⟨h1, h2, h3⟩ := foldl_max_spec GetAlignmentRequirement rest (GetAlignmentRequirement s)
  have hle : ∀ t ∈ s :: rest, GetAlignmentRequirement t
      ≤ rest.foldl (fun m t => max m (GetAlignmentRequirement t)) (GetAlignmentRequirement s) := by
    intro t ht
    rcases List.mem_cons.mp ht with rfl | ht'
    · exact h1
    · exact h2 t ht'
  have hex : ∃ t ∈ s :: rest, GetAlignmentRequirement t
      = rest.foldl (fun m t => max m (GetAlignmentRequirement t)) (GetAlignmentRequirement s) := by
    rcases h3 with h3 | ⟨t, ht, h3⟩
    · exact ⟨s, List.mem_cons_self _ _, h3.symm⟩
    · exact ⟨t, List.mem_cons_of_mem _ ht, h3⟩
  refine ⟨_, rfl, hle, hex, fun _ => rfl, ?_, ?_⟩
  · intro t T ht
    cases t <;> simp only [Slot.elem, Option.some.injEq] at ht <;>
      first
      | (subst ht; rfl)
      | cases ht
  · intro hpow t ht
    obtain ⟨t', ht', hm⟩ := hex
    obtain ⟨j, hj⟩ := hpow t ht
    obtain ⟨k, hk⟩ := hpow t' ht'
    have hjk := hle t ht
    rw [← hm, hj, hk] at hjk ⊢
    exact Nat.pow_dvd_pow 2 ((Nat.pow_le_pow_iff_right (by norm_num)).mp hjk)

/-- C17. Region containment and disjointness on an aligned block without
overflow: `niw` returns having requested `sizeof(header) + total` bytes; every
region `[begin, begin + count * sizeof(T))` recorded by the construct pass
starts at or after `base + sizeof(header)`, which keeps it off the header, ends
at or before `base` plus the requested size, and starts at a multiple of
`alignof(T)`; and of two regions the one declared first ends at or before the
begin of the other. -/
theorem niw_regions_contained_disjoint (hdr base : Nat) (heap : Heap)
    (decl : List (Slot × Nat)) (hhdr : 0 < hdr) (hal : alignmentsOk (arraySlots decl))
    (hbase : ∀ x ∈ arraySlots decl, x.1.align ∣ base)
    (hno : base + spec_regionsEnd (arraySlots decl) hdr < 2 ^ 64) :
    ∃ pi total st built,
      planPass hdr (decl.map (fun d => PreImplConverter d.1 d.2)) 0 = .ok (pi, total) ∧
      constructPass pi (wrap (base + hdr)) total = .ok st ∧
      niw hdr heap base decl = .ok (some built) ∧ built.requested = hdr + total ∧
      (∀ (i : Nat) (b : ArrayBuilder), (builders st.pi)[i]? = some b →
        base + hdr ≤ b.begin ∧ b.begin + b.m_size * b.T.size ≤ base + built.requested ∧
        b.T.align ∣ b.begin) ∧
      (∀ (i j : Nat) (b b' : ArrayBuilder), i < j → (builders st.pi)[i]? = some b →
        (builders st.pi)[j]? = some b' → b.begin + b.m_size * b.T.size ≤ b'.begin) := by
  obtain ⟨hplan, hcons⟩ := passes_ok hdr base decl hhdr hal hbase hno
  obtain ⟨ms, _, hniw⟩ := niw_ok hdr base heap decl hhdr hal hbase hno
  have hreg := regions_converter decl
  have htot := spec_total_eq hdr (arraySlots decl) hal 0
  rw [Nat.add_zero] at htot
  have hshift := spec_regionsEnd_shift (arraySlots decl) hal base hbase hdr
  have hal' : alignmentsOk (regions (decl.map (fun d => PreImplConverter d.1 d.2))) := by
    rw [hreg]; exact hal
  refine ⟨_, _, _, _, hplan, hcons, hniw, rfl, ?_, ?_⟩
  · intro i b hb
    simp only at hb
    obtain ⟨g1, g2, g3⟩ := placed_bounds _ hal' (base + hdr) i b hb
    rw [hreg, hshift] at g2
    refine ⟨g1, ?_, g3⟩
    show b.begin + b.m_size * b.T.size
      ≤ base + (hdr + spec_totalTrailingBytes hdr (arraySlots decl) 0)
    rw [htot]
    exact g2
  · intro i j b b' hij hb hb'
    simp only at hb hb'
    exact placed_ordered _ hal' (base + hdr) i j b b' hij hb hb'

/-- C17 at the scenario of the specification. -/
theorem niw_regions_contained_disjoint_witness :
    (0 < 32 ∧ alignmentsOk (arraySlots scenario) ∧
      (∀ x ∈ arraySlots scenario, x.1.align ∣ 4096) ∧
      4096 + spec_regionsEnd (arraySlots scenario) 32 < 2 ^ 64) ∧
    ∃ pi total st built,
      planPass 32 (scenario.map (fun d => PreImplConverter d.1 d.2)) 0 = .ok (pi, total) ∧
      constructPass pi (wrap (4096 + 32)) total = .ok st ∧
      niw 32 [] 4096 scenario = .ok (some built) ∧ built.requested = 32 + total ∧
      (∀ (i : Nat) (b : ArrayBuilder), (builders st.pi)[i]? = some b →
        4096 + 32 ≤ b.begin ∧ b.begin + b.m_size * b.T.size ≤ 4096 + built.requested ∧
        b.T.align ∣ b.begin) ∧
      (∀ (i j : Nat) (b b' : ArrayBuilder), i < j → (builders st.pi)[i]? = some b →
        (builders st.pi)[j]? = some b' → b.begin + b.m_size * b.T.size ≤ b'.begin) :=
  ⟨⟨by decide, scenario_alignmentsOk, scenario_base_aligned, by decide⟩,
    niw_regions_contained_disjoint 32 4096 [] scenario (by decide) scenario_alignmentsOk
      scenario_base_aligned (by decide)⟩

/-- C18. Accessor/builder agreement for an adjacent slot without anchor
(`AdjacentArray<T>` or `SizedAdjacentArray<T>`, `El = -1`) that is the first
array slot, only value slots being declared before it: for every `niw` that
returns, `begin<e>()` of that slot is the address `A` at which the construct
pass ran placement `new` for the slot's `n` elements, `A + i * sizeof(T)` for
`i < n` (the end of that region being representable). On an aligned block
without overflow `niw` does return. -/
theorem begin_agrees_with_construct_pass (hdr base : Nat) (heap : Heap)
    (vals : List (Ty × Nat)) (T : Ty) (n : Nat) (sized_ : Bool) (rest : List (Slot × Nat))
    (k : Nat) (hk : k < 64) (ha : T.align = 2 ^ k) (hsz : 0 < T.size)
    (hrep : spec_alignUp (base + hdr) T.align + n * T.size < 2 ^ 64) :
    (∀ built,
      niw hdr heap base (vals.map (fun x => (Slot.value x.1, x.2)) ++
        ((if sized_ then Slot.sizedAdjacentArray T (-1) else Slot.adjacentArray T (-1)), n)
          :: rest) = .ok (some built) →
      ∃ A, built.instance_.begin vals.length = some A ∧
        built.constructed.head?
          = some (some ((List.range n).map (fun i => A + i * T.size)))) ∧
    (0 < hdr →
      alignmentsOk (arraySlots (vals.map (fun x => (Slot.value x.1, x.2)) ++
        ((if sized_ then Slot.sizedAdjacentArray T (-1) else Slot.adjacentArray T (-1)), n)
          :: rest)) →
      (∀ x ∈ arraySlots (vals.map (fun x => (Slot.value x.1, x.2)) ++
        ((if sized_ then Slot.sizedAdjacentArray T (-1) else Slot.adjacentArray T (-1)), n)
          :: rest), x.1.align ∣ base) →
      base + spec_regionsEnd (arraySlots (vals.map (fun x => (Slot.value x.1, x.2)) ++
        ((if sized_ then Slot.sizedAdjacentArray T (-1) else Slot.adjacentArray T (-1)), n)
          :: rest)) hdr < 2 ^ 64 →
      ∃ built, niw hdr heap base (vals.map (fun x => (Slot.value x.1, x.2)) ++
        ((if sized_ then Slot.sizedAdjacentArray T (-1) else Slot.adjacentArray T (-1)), n)
          :: rest) = .ok (some built)) := by
  have hapos : 0 < T.align := by rw [ha]; exact Nat.pow_pos (by norm_num)
  have hge := spec_alignUp_ge (base + hdr) T.align hapos
  have hw : wrap (base + hdr) = base + hdr := by
    unfold wrap; exact Nat.mod_eq_of_lt (by omega)
  have hs : (if sized_ then Slot.sizedAdjacentArray T (-1)
      else Slot.adjacentArray T (-1)).elem = some T := by
    cases sized_ <;> rfl
  constructor
  · intro built hb
    obtain ⟨total, st, ms, _, hcons, _, hbm, hbuilt⟩ := niw_inv hdr base heap _ built hb
    subst hbuilt
    rw [hw] at hcons
    obtain ⟨r, pi', hr, hpi, hc⟩ := constructPass_first vals _ T n hs rest _ _ st hcons
    obtain ⟨hrb, hrc⟩ := consume_ok_inv ⟨T, n, 0⟩ k (base + hdr) total r hk ha hrep hr
    rw [hpi] at hbm
    obtain ⟨m, hm, hidx⟩ := buildMembers_first vals _ n rest _ pi' ms hbm
    have hkind : m = .adjacentArray T (-1) ∨ ∃ m_end, m = .sizedAdjacentArray T (-1) m_end := by
      cases sized_ with
      | false =>
        simp only [Bool.false_eq_true, if_false, TransformUnboundedArrays, Member.ofPreImpl,
          Option.some.injEq] at hm
        exact Or.inl hm.symm
      | true =>
        simp only [if_true, TransformUnboundedArrays, Member.ofPreImpl,
          Option.some.injEq] at hm
        exact Or.inr ⟨_, hm.symm⟩
    have hbeg := begin_no_anchor_aux ⟨base, hdr, ms⟩ vals.length T k m hk ha hidx hkind
      (by simp only; omega)
    refine ⟨_, hbeg, ?_⟩
    show st.constructed.head? = _
    rw [hc, hrc]
    simp only
    rw [ptrRange_eq T.size _ n hsz]
  · intro hhdr hal hbase hno
    obtain ⟨ms, _, hniw⟩ := niw_ok hdr base heap _ hhdr hal hbase hno
    exact ⟨_, hniw⟩

/-- C18 at `FlexibleLayoutClass<int32, SizedAdjacentArray<NonTrivial>>` built
with `(7, 2)`, 16-byte header at `4096`: accessor and construct pass agree on
`4112`. -/
theorem begin_agrees_with_construct_pass_witness :
    (3 < 64 ∧ NonTrivial.align = 2 ^ 3 ∧ 0 < NonTrivial.size ∧
      spec_alignUp (4096 + 16) NonTrivial.align + 2 * NonTrivial.size < 2 ^ 64) ∧
    ((∀ built,
      niw 16 [] 4096 ([(int32, 7)].map (fun x => (Slot.value x.1, x.2)) ++
        ((if true then Slot.sizedAdjacentArray NonTrivial (-1)
          else Slot.adjacentArray NonTrivial (-1)), 2) :: []) = .ok (some built) →
      ∃ A, built.instance_.begin [(int32, 7)].length = some A ∧
        built.constructed.head?
          = some (some ((List.range 2).map (fun i => A + i * NonTrivial.size)))) ∧
    (0 < 16 →
      alignmentsOk (arraySlots ([(int32, 7)].map (fun x => (Slot.value x.1, x.2)) ++
        ((if true then Slot.sizedAdjacentArray NonTrivial (-1)
          else Slot.adjacentArray NonTrivial (-1)), 2) :: [])) →
      (∀ x ∈ arraySlots ([(int32, 7)].map (fun x => (Slot.value x.1, x.2)) ++
        ((if true then Slot.sizedAdjacentArray NonTrivial (-1)
          else Slot.adjacentArray NonTrivial (-1)), 2) :: []), x.1.align ∣ 4096) →
      4096 + spec_regionsEnd (arraySlots ([(int32, 7)].map (fun x => (Slot.value x.1, x.2)) ++
        ((if true then Slot.sizedAdjacentArray NonTrivial (-1)
          else Slot.adjacentArray NonTrivial (-1)), 2) :: [])) 16 < 2 ^ 64 →
      ∃ built, niw 16 [] 4096 ([(int32, 7)].map (fun x => (Slot.value x.1, x.2)) ++
        ((if true then Slot.sizedAdjacentArray NonTrivial (-1)
          else Slot.adjacentArray NonTrivial (-1)), 2) :: []) = .ok (some built))) ∧
    niw 16 [] 4096 adjacentFirst = .ok (some
      ⟨⟨4096, 16, [.value int32 7, .sizedAdjacentArray NonTrivial (-1) 4128]⟩, 32,
       [some [4112, 4120]], [(4096, 32)]⟩) ∧
    (Instance.mk 4096 16 [.value int32 7, .sizedAdjacentArray NonTrivial (-1) 4128]).begin 1
      = some 4112 :=
  ⟨⟨by decide, rfl, by decide, by decide⟩,
    begin_agrees_with_construct_pass 16 4096 [] [(int32, 7)] NonTrivial 2 true [] 3 (by decide)
      rfl (by decide) (by decide),
    rfl, rfl⟩

/-- C19. The base-alignment precondition is necessary: for
`FlexibleLayoutClass<Wide[]>` (element alignment 32) built with `(2)`, 32-byte
header, in a block at `4112`, which is not a multiple of 32, the plan pass
succeeds with no padding (`64` trailing bytes), the aligned address of the
real cursor `4144` lies `16` bytes further, `16 + 64 > 64`, `std::align` in
`consume` returns the null pointer, and `niw` ends in `assert(m_ptr)`. -/
theorem base_alignment_necessary :
    ¬ (Wide.align ∣ 4112) ∧
    planPass 32 (overaligned.map (fun d => PreImplConverter d.1 d.2)) 0
      = .ok (overaligned.map (fun d => PreImplConverter d.1 d.2), 64) ∧
    spec_alignUp 32 Wide.align - 32 = 0 ∧
    spec_alignUp (4112 + 32) Wide.align - (4112 + 32) = 16 ∧
    (std_align Wide.align (ArrayBuilder.mk Wide 2 0).numBytes 4144 64).r = 0 ∧
    constructPass (overaligned.map (fun d => PreImplConverter d.1 d.2)) (wrap (4112 + 32)) 64
      = .error (.assert_m_ptr 4144 64) ∧
    niw 32 [] 4112 overaligned = .error (.assert_m_ptr 4144 64) :=
  ⟨by decide, rfl, rfl, rfl, rfl, rfl, rfl⟩

/-- C20. Size overflow with `size_t` modulo `2 ^ 64`: for `NonTrivial` (size 8)
and `n = 2 ^ 61 + 1` the exact byte count `n * 8` is `2 ^ 64 + 8`, `numBytes()`
wraps to `8`, `numRequiredBytes(16)` returns `8`, and `niw` (16-byte header,
block at `4096`) requests `24` bytes, fewer than the `n` elements need, and
returns: the assertion in `consume` and the final
`assert(numBytesForArrays == 0)` both pass. -/
theorem size_overflow_wraps :
    1 < NonTrivial.size ∧
    (2 ^ 61 + 1) * NonTrivial.size = 2 ^ 64 + 8 ∧
    (ArrayBuilder.mk NonTrivial (2 ^ 61 + 1) 0).numBytes = 8 ∧
    (ArrayBuilder.mk NonTrivial (2 ^ 61 + 1) 0).numRequiredBytes 16
      = .ok (ArrayBuilder.mk NonTrivial (2 ^ 61 + 1) 0, 8) ∧
    8 < (2 ^ 61 + 1) * NonTrivial.size ∧
    niw 16 [] 4096 oversized = .ok (some
      ⟨⟨4096, 16, [.sizedArray NonTrivial 4112 4120]⟩, 24, [some [4112]], [(4096, 24)]⟩) ∧
    24 < 16 + (2 ^ 61 + 1) * NonTrivial.size ∧
    constructPass (oversized.map (fun d => PreImplConverter d.1 d.2)) (wrap (4096 + 16)) 8
      = .ok ⟨[.builder ⟨NonTrivial, 2 ^ 61 + 1, 4112⟩], 4120, 0, [some [4112]]⟩ :=
  ⟨by decide, by decide, rfl, rfl, by decide, rfl, by decide, rfl⟩

end fc
